import Mathlib

/-!
# chatserver: room hub, admission and identity minting

A shallow embedding of `room.go` and `client.go`.

* Go strings and byte slices are lists of bytes (`Bytes`); `utf8` gives the
  bytes of a string constant. `jsonMarshal` follows `encoding/json` on the
  struct `ClientMessage`, including what it does with bytes that are not
  well-formed UTF-8.
* A `*client` is a `client` value; two values are the same pointer exactly when
  they are equal, and the field `addr` tells apart two clients that carry the
  same `user`.
* The channel behind a client's `receive` field is mutable, so it lives in the
  state (`State.receive`) instead of in the `client` value. A send on a full
  buffer waits, a send on a closed channel panics.
* The goroutine of `room.run` and the goroutine started by
  `startChatProcessor` are two threads of control with their own position
  (`State.hub`, `State.chat`). `step` is one step of one of them or of a send
  pump, `exec` an interleaving. `run`, `chatFinish` and `runAll` are the
  interleavings in which one goroutine goes on alone. Each access to the
  `clients` map is recorded together with the goroutine that performs it.
-/

namespace Chatserver

/-! ## Bytes, UTF-8 and the JSON form of a `ClientMessage` -/

/-- A Go byte slice or string: its bytes, each from 0 to 255. -/
abbrev Bytes := List Nat

/-- UTF-8 encoding of the code point `n`. -/
def utf8Encode (n : Nat) : Bytes :=
  if n < 128 then [n]
  else if n < 2048 then [192 + n / 64, 128 + n % 64]
  else if n < 65536 then [224 + n / 4096, 128 + n / 64 % 64, 128 + n % 64]
  else [240 + n / 262144, 128 + n / 4096 % 64, 128 + n / 64 % 64, 128 + n % 64]

/-- The bytes of a Go string given as text. -/
def utf8 (s : String) : Bytes := s.data.flatMap (fun c => utf8Encode c.toNat)

/-- The function `utf8.DecodeRuneInString` on a string that starts with the
byte `b0 ≥ 0x80` followed by `rest`: the code point and its width, or `none`
where Go returns `(RuneError, 1)`. -/
def decodeRune (b0 : Nat) (rest : Bytes) : Option (Nat × Nat) :=
  if 194 ≤ b0 ∧ b0 ≤ 223 then
    match rest with
    | b1 :: _ =>
      if 128 ≤ b1 ∧ b1 ≤ 191 then some ((b0 - 192) * 64 + (b1 - 128), 2) else none
    | [] => none
  else if 224 ≤ b0 ∧ b0 ≤ 239 then
    match rest with
    | b1 :: b2 :: _ =>
      if (if b0 = 224 then 160 else 128) ≤ b1 ∧ b1 ≤ (if b0 = 237 then 159 else 191) ∧
          128 ≤ b2 ∧ b2 ≤ 191 then
        some ((b0 - 224) * 4096 + (b1 - 128) * 64 + (b2 - 128), 3)
      else none
    | _ => none
  else if 240 ≤ b0 ∧ b0 ≤ 244 then
    match rest with
    | b1 :: b2 :: b3 :: _ =>
      if (if b0 = 240 then 144 else 128) ≤ b1 ∧ b1 ≤ (if b0 = 244 then 143 else 191) ∧
          128 ≤ b2 ∧ b2 ≤ 191 ∧ 128 ≤ b3 ∧ b3 ≤ 191 then
        some ((b0 - 240) * 262144 + (b1 - 128) * 4096 + (b2 - 128) * 64 + (b3 - 128), 4)
      else none
    | _ => none
  else none

/-- Lower-case hexadecimal digit, as in the table `hex` of `encoding/json`. -/
def hexDigit (n : Nat) : Nat := if n < 10 then 48 + n else 87 + n

/-- How `encoding/json` writes one ASCII byte of a string (HTML escaping on). -/
def jsonAscii (b : Nat) : Bytes :=
  if b = 34 ∨ b = 92 then [92, b]
  else if b = 8 then [92, 98]
  else if b = 12 then [92, 102]
  else if b = 10 then [92, 110]
  else if b = 13 then [92, 114]
  else if b = 9 then [92, 116]
  else if b < 32 ∨ b = 60 ∨ b = 62 ∨ b = 38 then
    [92, 117, 48, 48, hexDigit (b / 16), hexDigit (b % 16)]
  else [b]

/-- The loop of `appendString` in `encoding/json` over the bytes of a string;
the first argument counts bytes still to pass over because they belong to
the code point just written. A byte that starts no well-formed sequence is
written as the escape of U+FFFD, U+2028 and U+2029 are written as escapes,
every other well-formed sequence is copied. -/
def jsonBody : Nat → Bytes → Bytes
  | _, [] => []
  | k + 1, _ :: rest => jsonBody k rest
  | 0, b :: rest =>
    if b < 128 then jsonAscii b ++ jsonBody 0 rest
    else
      match decodeRune b rest with
      | none => [92, 117, 102, 102, 102, 100] ++ jsonBody 0 rest
      | some (r, size) =>
        if r = 8232 ∨ r = 8233 then
          [92, 117, 50, 48, 50, hexDigit (r % 16)] ++ jsonBody (size - 1) rest
        else b :: rest.take (size - 1) ++ jsonBody (size - 1) rest

/-- A JSON string literal for the Go string `s`. -/
def jsonString (s : Bytes) : Bytes := 34 :: jsonBody 0 s ++ [34]

/-- The struct `ClientMessage` (field `Type` is spelled `Type_`). -/
structure ClientMessage where
  Type_ : Bytes
  Message : Bytes
  User : Bytes
deriving DecidableEq, Repr

/-- The call `json.Marshal(message)` on a `ClientMessage`; the keys come from
the struct tags `type`, `message`, `user`, in field order. -/
def jsonMarshal (m : ClientMessage) : Except String Bytes :=
  .ok (utf8 "\x7b\"type\":" ++ jsonString m.Type_ ++ utf8 ",\"message\":" ++ jsonString m.Message
    ++ utf8 ",\"user\":" ++ jsonString m.User ++ utf8 "\x7d")

/-! ### Reading the JSON form back -/

/-- Value of a hexadecimal digit. -/
def unhex (b : Nat) : Option Nat :=
  if 48 ≤ b ∧ b ≤ 57 then some (b - 48)
  else if 97 ≤ b ∧ b ≤ 102 then some (b - 87)
  else if 65 ≤ b ∧ b ≤ 70 then some (b - 55)
  else none

/-- The byte a two-character JSON escape stands for. -/
def unescapeSimple (e : Nat) : Option Nat :=
  if e = 34 then some 34
  else if e = 92 then some 92
  else if e = 47 then some 47
  else if e = 98 then some 8
  else if e = 102 then some 12
  else if e = 110 then some 10
  else if e = 114 then some 13
  else if e = 116 then some 9
  else none

/-- Puts `d` in front of the text read so far. -/
def prepend (d : Bytes) : Option (Bytes × Bytes) → Option (Bytes × Bytes)
  | none => none
  | some p => some (d ++ p.1, p.2)

/-- Reads the inside of a JSON string literal up to its closing quote:
the text it stands for (escapes resolved, `\uXXXX` as UTF-8) and the bytes
after the quote. -/
def jsonUnquoteBody : Bytes → Option (Bytes × Bytes)
  | [] => none
  | b :: rest =>
    if b = 34 then some ([], rest)
    else if b = 92 then
      match rest with
      | [] => none
      | e :: rest1 =>
        if e = 117 then
          match rest1 with
          | h1 :: h2 :: h3 :: h4 :: rest2 =>
            match unhex h1, unhex h2, unhex h3, unhex h4 with
            | some d1, some d2, some d3, some d4 =>
              if 55296 ≤ d1 * 4096 + d2 * 256 + d3 * 16 + d4 ∧
                  d1 * 4096 + d2 * 256 + d3 * 16 + d4 ≤ 57343 then none
              else prepend (utf8Encode (d1 * 4096 + d2 * 256 + d3 * 16 + d4))
                (jsonUnquoteBody rest2)
            | _, _, _, _ => none
          | _ => none
        else
          match unescapeSimple e with
          | some c => prepend [c] (jsonUnquoteBody rest1)
          | none => none
    else if b < 32 then none
    else prepend [b] (jsonUnquoteBody rest)

/-- Reads a JSON string literal at the start of the input. -/
def jsonUnquote : Bytes → Option (Bytes × Bytes)
  | [] => none
  | b :: rest => if b = 34 then jsonUnquoteBody rest else none

/-- Takes the bytes `p` off the start of the input. -/
def expect : Bytes → Bytes → Option Bytes
  | [], bs => some bs
  | _ :: _, [] => none
  | p :: ps, b :: bs => if p = b then expect ps bs else none

/-- What a JSON reader gets from the wire form that `jsonMarshal` writes: the
three string members of the object, in the order `type`, `message`, `user`. -/
def jsonUnmarshal (bs : Bytes) : Option ClientMessage :=
  match expect (utf8 "\x7b\"type\":") bs with
  | none => none
  | some r1 =>
    match jsonUnquote r1 with
    | none => none
    | some (t, r2) =>
      match expect (utf8 ",\"message\":") r2 with
      | none => none
      | some r3 =>
        match jsonUnquote r3 with
        | none => none
        | some (m, r4) =>
          match expect (utf8 ",\"user\":") r4 with
          | none => none
          | some r5 =>
            match jsonUnquote r5 with
            | none => none
            | some (u, r6) =>
              if r6 = utf8 "\x7d" then some { Type_ := t, Message := m, User := u } else none

/-- The Go string `s` with every byte that starts no well-formed UTF-8
sequence replaced by the encoding of U+FFFD; the first argument counts bytes
still to copy because they belong to the sequence just started. -/
def replaceInvalid : Nat → Bytes → Bytes
  | _, [] => []
  | k + 1, b :: rest => b :: replaceInvalid k rest
  | 0, b :: rest =>
    if b < 128 then b :: replaceInvalid 0 rest
    else
      match decodeRune b rest with
      | none => [239, 191, 189] ++ replaceInvalid 0 rest
      | some (_, size) => b :: replaceInvalid (size - 1) rest

/-! ## Channels -/

/-- Runtime panics the hub can raise on a client's channel. -/
inductive Panic where
  | sendOnClosedChannel
  | closeOfClosedChannel
deriving DecidableEq, Repr

/-- What the next operation of a goroutine does: it completes with a new
value, it has to wait (the value says where it waits), or it panics and the
process dies. -/
inductive Outcome (α : Type) where
  | ok (a : α)
  | blocked (a : α)
  | panic (p : Panic)

/-- Which of the three an `Outcome` is. -/
inductive Status where
  | ok
  | blocked
  | panic (p : Panic)
deriving DecidableEq, Repr

/-- The kind of an `Outcome`, without its value. -/
def Outcome.status {α : Type} : Outcome α → Status
  | .ok _ => Status.ok
  | .blocked _ => Status.blocked
  | .panic p => Status.panic p

/-- A buffered Go channel of byte slices: `cap` is the capacity it was made
with, `buf` the values waiting in the buffer (oldest first), `closed` whether
`close` has been called. `sent` is a record of every value ever enqueued,
oldest first; no code reads it. -/
structure Chan where
  cap : Nat
  buf : List Bytes
  sent : List Bytes
  closed : Bool
deriving DecidableEq, Repr

/-- The Go builtin `make(chan []byte, n)`. -/
def makeChan (n : Nat) : Chan := { cap := n, buf := [], sent := [], closed := false }

/-- The send statement `ch <- v`: a panic on a closed channel (also for a
sender that was waiting when the channel got closed), a wait while the buffer
is full, and otherwise the value goes to the end of the buffer. -/
def Chan.send (ch : Chan) (v : Bytes) : Outcome Chan :=
  if ch.closed then .panic .sendOnClosedChannel
  else if ch.buf.length < ch.cap then
    .ok { cap := ch.cap, buf := ch.buf ++ [v], sent := ch.sent ++ [v], closed := ch.closed }
  else .blocked ch

/-- The Go builtin `close(ch)`. -/
def Chan.close (ch : Chan) : Outcome Chan :=
  if ch.closed then .panic .closeOfClosedChannel
  else .ok { cap := ch.cap, buf := ch.buf, sent := ch.sent, closed := true }

/-- One receive of `for msg := range c.receive` in `client.write`: the oldest
value leaves the buffer; with an empty buffer the loop waits, or ends when
the channel is closed. -/
def Chan.recv (ch : Chan) : Outcome Chan :=
  match ch.buf with
  | _ :: rest => .ok { cap := ch.cap, buf := rest, sent := ch.sent, closed := ch.closed }
  | [] => .blocked ch

/-! ## Data model of `room.go` and `client.go` -/

def socketBufferSize : Nat := 1024

def messageBufferSize : Nat := 256

/-- The struct `client`. `addr` is the identity of the heap object; `socket`
and `room` are not read by the hub and the channel of field `receive` is kept
in `State`. -/
structure client where
  addr : Nat
  user : String
deriving DecidableEq, Repr

/-- What `room.run` receives on `join`, `leave` and `forward`. -/
inductive Event where
  | join (c : client)
  | leave (c : client)
  | forward (msg : Bytes)
deriving DecidableEq, Repr

/-- The goroutines that touch `room.clients`: the one of `go r.run()` and the
one of the `go func()` in `startChatProcessor`. -/
inductive Goroutine where
  | hubLoop
  | chatProcessor
deriving DecidableEq, Repr

/-- Kind of access to the map `room.clients`. -/
inductive MapAccess where
  | read
  | write
deriving DecidableEq, Repr

/-- Where the loop `for client := range r.clients` of `broadcastMessage`
stands: about to take the next key from those not yet produced, or at the
send `client.receive <- msgBytes` with `c` in hand. -/
inductive Loop where
  | next (rest : List client)
  | send (c : client) (rest : List client)
deriving DecidableEq, Repr

/-- A call of `broadcastMessage` that has marshalled its message and is in
its loop; `sender = none` is the nil pointer. -/
structure Broadcast where
  sender : Option client
  msgBytes : Bytes
  l : Loop
deriving DecidableEq, Repr

/-- Where the goroutine of `room.run` stands: waiting in `select`, at the
send `r.chatMsgChannel <- clientMsg`, or inside `broadcastMessage`. -/
inductive HubPc where
  | select
  | handOver (clientMsg : ClientMessage)
  | broadcast (b : Broadcast)
deriving DecidableEq, Repr

/-- Where the goroutine started by `startChatProcessor` stands: waiting on
`chatMsgChannel`, holding the message it received, or inside
`broadcastMessage`. -/
inductive ChatPc where
  | receive
  | got (chatMsg : ClientMessage)
  | broadcast (b : Broadcast)
deriving DecidableEq, Repr

/-- State of the program around the hub. `clients` holds the keys of
`room.clients` (every stored value is `true`) in the order a `range` visits
them, an order that plays no part in the statements below; `receive c` is the
channel in field `receive` of `c`; `hub` and `chat` say where the two
goroutines stand; `accesses` records who touched `room.clients`. -/
structure State where
  clients : List client
  receive : client → Chan
  hub : HubPc
  chat : ChatPc
  accesses : List (Goroutine × MapAccess)

/-- The function `newRoom`: an empty participant set, the chat processor
started and waiting, and `run` about to enter its `select`. Every client's
channel is as `ServeHTTP` makes it, since nothing touches it before the hub
does. -/
def newRoom : State :=
  { clients := [], receive := fun _ => makeChan messageBufferSize, hub := HubPc.select,
    chat := ChatPc.receive, accesses := [] }

/-- The assignment `r.clients[client] = true`. -/
def mapSet (m : List client) (c : client) : List client :=
  if c ∈ m then m else m ++ [c]

/-- The call `delete(r.clients, client)`. -/
def mapDelete (m : List client) (c : client) : List client :=
  m.filter (fun k => k ≠ c)

/-- The method `broadcastMessage` up to the start of its loop: `none` when
`json.Marshal` fails (the error is logged and the method returns). -/
def broadcastMessage (sender : Option client) (message : ClientMessage)
    (clients : List client) : Option Broadcast :=
  match jsonMarshal message with
  | .error _ => none
  | .ok msgBytes => some { sender := sender, msgBytes := msgBytes, l := Loop.next clients }

/-- The method `broadcastUserJoined`. -/
def broadcastUserJoined (newClient : client) (clients : List client) : Option Broadcast :=
  broadcastMessage (some newClient)
    { Type_ := utf8 "userJoined", Message := utf8 (newClient.user ++ " joined the chat."),
      User := utf8 newClient.user } clients

/-- The method `broadcastUserLeft`. -/
def broadcastUserLeft (leftClient : client) (clients : List client) : Option Broadcast :=
  broadcastMessage (some leftClient)
    { Type_ := utf8 "userLeft", Message := utf8 (leftClient.user ++ " left the chat."),
      User := utf8 leftClient.user } clients

/-- One step of the loop of `broadcastMessage`. Taking the next key: a key
deleted from the map since the loop started is not produced, and a key equal
to `sender` fails the test `client != sender`. At the send, the step is the
send on the channel of the client in hand. The result is the channels and
where the loop stands next (`none` when the loop is over). A key added to
the map since the loop started is not visited, which the language allows. -/
def Broadcast.step (clients : List client) (receive : client → Chan) (b : Broadcast) :
    Outcome ((client → Chan) × Option Broadcast) :=
  match b.l with
  | .next [] => .ok (receive, none)
  | .next (k :: rest) =>
    if k ∈ clients ∧ some k ≠ b.sender then
      .ok (receive, some { sender := b.sender, msgBytes := b.msgBytes, l := Loop.send k rest })
    else .ok (receive, some { sender := b.sender, msgBytes := b.msgBytes, l := Loop.next rest })
  | .send c rest =>
    match (receive c).send b.msgBytes with
    | .ok ch =>
      .ok (Function.update receive c ch,
        some { sender := b.sender, msgBytes := b.msgBytes, l := Loop.next rest })
    | .blocked _ => .blocked (receive, some b)
    | .panic p => .panic p

/-- Entries in the record of accesses for the start of a `range r.clients`. -/
def rangeAccess (g : Goroutine) : Option Broadcast → List (Goroutine × MapAccess)
  | none => []
  | some _ => [(g, MapAccess.read)]

/-- Where `run` stands after a call of `broadcastMessage` has started. -/
def HubPc.after : Option Broadcast → HubPc
  | none => HubPc.select
  | some b => HubPc.broadcast b

/-- Where the chat processor stands after a call of `broadcastMessage` has
started. -/
def ChatPc.after : Option Broadcast → ChatPc
  | none => ChatPc.receive
  | some b => ChatPc.broadcast b

/-- The `select` of `room.run` receives the event `e` and runs its case up to
the first statement that can wait: the loop of `broadcastMessage` for a join
or a leave, the send on `chatMsgChannel` for a forward. -/
def recv (s : State) (e : Event) : Outcome State :=
  match s.hub with
  | .select =>
    match e with
    | .join c =>
      .ok { clients := mapSet s.clients c
            receive := s.receive
            hub := HubPc.after (broadcastUserJoined c (mapSet s.clients c))
            chat := s.chat
            accesses := s.accesses ++ (Goroutine.hubLoop, MapAccess.write) ::
              rangeAccess Goroutine.hubLoop (broadcastUserJoined c (mapSet s.clients c)) }
    | .leave c =>
      match (s.receive c).close with
      | .ok ch =>
        .ok { clients := mapDelete s.clients c
              receive := Function.update s.receive c ch
              hub := HubPc.after (broadcastUserLeft c (mapDelete s.clients c))
              chat := s.chat
              accesses := s.accesses ++ (Goroutine.hubLoop, MapAccess.write) ::
                rangeAccess Goroutine.hubLoop (broadcastUserLeft c (mapDelete s.clients c)) }
      | .blocked _ => .blocked s
      | .panic p => .panic p
    | .forward msg =>
      .ok { clients := s.clients
            receive := s.receive
            hub := HubPc.handOver
              { Type_ := utf8 "chatMessage", Message := msg, User := utf8 "SenderUsername" }
            chat := s.chat
            accesses := s.accesses }
  | _ => .blocked s

/-- The next step of the goroutine of `room.run` when it is not in `select`:
the send on the unbuffered `chatMsgChannel`, which completes only when the
chat processor is waiting to receive, or one step of the loop of
`broadcastMessage`. -/
def hubStep (s : State) : Outcome State :=
  match s.hub with
  | .select => .blocked s
  | .handOver m =>
    match s.chat with
    | .receive =>
      .ok { clients := s.clients, receive := s.receive, hub := HubPc.select,
            chat := ChatPc.got m, accesses := s.accesses }
    | _ => .blocked s
  | .broadcast b =>
    match b.step s.clients s.receive with
    | .ok (receive, next) =>
      .ok { clients := s.clients, receive := receive, hub := HubPc.after next, chat := s.chat,
            accesses := s.accesses }
    | .blocked _ => .blocked s
    | .panic p => .panic p

/-- The next step of the goroutine started by `startChatProcessor`: with a
message in hand it calls `r.broadcastMessage(nil, chatMsg)`, inside that call
it does one step of the loop. -/
def startChatProcessor (s : State) : Outcome State :=
  match s.chat with
  | .receive => .blocked s
  | .got chatMsg =>
    .ok { clients := s.clients, receive := s.receive, hub := s.hub,
          chat := ChatPc.after (broadcastMessage none chatMsg s.clients),
          accesses := s.accesses ++
            rangeAccess Goroutine.chatProcessor (broadcastMessage none chatMsg s.clients) }
  | .broadcast b =>
    match b.step s.clients s.receive with
    | .ok (receive, next) =>
      .ok { clients := s.clients, receive := receive, hub := s.hub, chat := ChatPc.after next,
            accesses := s.accesses }
    | .blocked _ => .blocked s
    | .panic p => .panic p

/-- One receive of the loop of `client.write` for the client `c`. -/
def pump (s : State) (c : client) : Outcome State :=
  match (s.receive c).recv with
  | .ok ch =>
    .ok { clients := s.clients, receive := Function.update s.receive c ch, hub := s.hub,
          chat := s.chat, accesses := s.accesses }
  | _ => .blocked s

/-- What can happen next in the program: `run` receives an event, `run` goes
one step on, the chat processor goes one step on, or the send pump of a
client takes a message from its queue. -/
inductive Action where
  | recv (e : Event)
  | hub
  | chat
  | pump (c : client)
deriving DecidableEq, Repr

/-- One step of the program. -/
def step (s : State) : Action → Outcome State
  | .recv e => recv s e
  | .hub => hubStep s
  | .chat => startChatProcessor s
  | .pump c => pump s c

/-- An interleaving of the goroutines, step by step; it stops at the first
step that cannot be taken or that panics. -/
def exec (s : State) : List Action → Outcome State
  | [] => .ok s
  | a :: rest =>
    match step s a with
    | .ok s1 => exec s1 rest
    | .blocked s1 => .blocked s1
    | .panic p => .panic p

/-- The events `run` receives in an interleaving, in order. -/
def events : List Action → List Event
  | [] => []
  | .recv e :: rest => e :: events rest
  | _ :: rest => events rest

/-- Number of steps that surely end the loop of a broadcast. -/
def Broadcast.fuel (b : Broadcast) : Nat :=
  match b.l with
  | .next rest => 2 * rest.length + 1
  | .send _ rest => 2 * rest.length + 2

/-- At most `n` steps in a row of the loop of `broadcastMessage`, up to its
end or to a send that has to wait. -/
def Broadcast.finish (clients : List client) :
    Nat → (client → Chan) → Broadcast → Outcome ((client → Chan) × Option Broadcast)
  | 0, receive, b => .blocked (receive, some b)
  | n + 1, receive, b =>
    match b.step clients receive with
    | .ok (receive1, none) => .ok (receive1, none)
    | .ok (receive1, some b1) => Broadcast.finish clients n receive1 b1
    | .blocked _ => .blocked (receive, some b)
    | .panic p => .panic p

/-- The goroutine of `room.run` goes on, alone, until it is back in `select`
or has to wait. -/
def hubFinish (s : State) : Outcome State :=
  match s.hub with
  | .select => .ok s
  | .handOver _ => hubStep s
  | .broadcast b =>
    match Broadcast.finish s.clients b.fuel s.receive b with
    | .ok (receive, _) =>
      .ok { clients := s.clients, receive := receive, hub := HubPc.select, chat := s.chat,
            accesses := s.accesses }
    | .blocked (receive, next) =>
      .blocked { clients := s.clients, receive := receive, hub := HubPc.after next,
                 chat := s.chat, accesses := s.accesses }
    | .panic p => .panic p

/-- One turn of the loop of `room.run`, alone: the `select` receives `e` and
the case runs until `run` is back in `select` or has to wait. When the turn
comes to its end it is the interleaving `recv e` followed by steps of `run`
only (`run_exec`). -/
def run (s : State) (e : Event) : Outcome State :=
  match recv s e with
  | .ok s1 => hubFinish s1
  | .blocked s1 => .blocked s1
  | .panic p => .panic p

/-- The chat processor goes on, alone, inside `broadcastMessage` until the
loop is over or has to wait. -/
def chatLoop (s : State) : Outcome State :=
  match s.chat with
  | .broadcast b =>
    match Broadcast.finish s.clients b.fuel s.receive b with
    | .ok (receive, _) =>
      .ok { clients := s.clients, receive := receive, hub := s.hub, chat := ChatPc.receive,
            accesses := s.accesses }
    | .blocked (receive, next) =>
      .blocked { clients := s.clients, receive := receive, hub := s.hub,
                 chat := ChatPc.after next, accesses := s.accesses }
    | .panic p => .panic p
  | _ => .ok s

/-- The chat processor goes on, alone, until it waits on `chatMsgChannel`
again or has to wait in a send. -/
def chatFinish (s : State) : Outcome State :=
  match s.chat with
  | .got _ =>
    match startChatProcessor s with
    | .ok s1 => chatLoop s1
    | .blocked s1 => .blocked s1
    | .panic p => .panic p
  | _ => chatLoop s

/-- The interleaving in which, for each event in turn, `run` handles it alone
and then the chat processor finishes its broadcast alone, while no send pump
takes anything (`runAll_exec`). -/
def runAll (s : State) : List Event → Outcome State
  | [] => .ok s
  | e :: rest =>
    match run s e with
    | .ok s1 =>
      match chatFinish s1 with
      | .ok s2 => runAll s2 rest
      | .blocked s2 => .blocked s2
      | .panic p => .panic p
    | .blocked s1 => .blocked s1
    | .panic p => .panic p

/-- The client in hand when `run` stands at a send. -/
def HubPc.atSend : HubPc → Option client
  | .broadcast { sender := _, msgBytes := _, l := Loop.send c _ } => some c
  | _ => none

/-- The client in hand when the chat processor stands at a send. -/
def ChatPc.atSend : ChatPc → Option client
  | .broadcast { sender := _, msgBytes := _, l := Loop.send c _ } => some c
  | _ => none

/-- What the statements look at in the queue of a client: whether the client
is registered, whether the queue is closed, how many messages wait in it and
how many were ever appended to it. -/
structure QueueView where
  registered : Bool
  closed : Bool
  waiting : Nat
  appended : Nat
deriving DecidableEq, Repr

/-- The view of the queue of `c` in the state `s`. -/
def State.view (s : State) (c : client) : QueueView :=
  { registered := decide (c ∈ s.clients), closed := (s.receive c).closed,
    waiting := (s.receive c).buf.length, appended := (s.receive c).sent.length }

/-- Runs the given turns one after the other, each from the state the one
before ended in (whether it came to its end or had to wait), and records for
each its status and what `obs` sees in the state it ends in; a panic ends
the record. -/
def trace {α : Type} (obs : State → α) :
    State → List (State → Outcome State) → List (Status × Option α)
  | _, [] => []
  | s, t :: rest =>
    match t s with
    | .ok s1 => (Status.ok, some (obs s1)) :: trace obs s1 rest
    | .blocked s1 => (Status.blocked, some (obs s1)) :: trace obs s1 rest
    | .panic p => [(Status.panic p, none)]

/-! ## Admission: `generateUniqueUser`, `client.read`, `ServeHTTP`, `CheckOrigin` -/

/-- Arithmetic of Go's `int` on a 64-bit platform: the result of an operation
is reduced into the range from `-2^63` to `2^63 - 1`. -/
def wrapInt (n : Int) : Int :=
  (n + 9223372036854775808) % 18446744073709551616 - 9223372036854775808

/-- The function `strconv.Itoa`. -/
def Itoa (i : Int) : String := toString i

/-- The function `generateUniqueUser`, on the value of the global
`userIDCounter`; the mutex makes each call atomic. Returns the string and the
new value of the counter. -/
def generateUniqueUser (userIDCounter : Int) : String × Int :=
  let n := wrapInt (userIDCounter + 1)
  ("User" ++ Itoa n, n)

/-- The strings returned by `n` calls of `generateUniqueUser` in a row. -/
def callSeq : Nat → Int → List String
  | 0, _ => []
  | n + 1, userIDCounter =>
    (generateUniqueUser userIDCounter).1 ::
      callSeq n (generateUniqueUser userIDCounter).2

/-- The method `client.read`, given what the successive calls of
`ReadMessage` return (an error or a payload). Returns the events it sends to
the hub and whether the loop has returned; when the results run out the loop
is still waiting in `ReadMessage`. -/
def client.read (c : client) : List (Except String Bytes) → List Event × Bool
  | [] => ([], false)
  | .error _ :: _ => ([], true)
  | .ok msg :: rest => (Event.forward msg :: (client.read c rest).1, (client.read c rest).2)

/-- Process state that `ServeHTTP` reads and writes: the global
`userIDCounter` and the address the allocator gives to the next client. -/
structure Process where
  userIDCounter : Int
  nextAddr : Nat
deriving DecidableEq, Repr

/-- What one call of `ServeHTTP` has done: the client it built, the channel
made for that client, the events sent to the hub in order, whether the call
has returned, and the process state it leaves. -/
structure Session where
  participant : client
  receive : Chan
  events : List Event
  returned : Bool
  process : Process
deriving DecidableEq, Repr

/-- The method `room.ServeHTTP`. `upgrade` is what `upgrader.Upgrade` returns:
an error, or a socket given by the results of its successive reads. On an
upgrade error `log.Fatal` ends the process (`none`). -/
def ServeHTTP (upgrade : Except String (List (Except String Bytes))) (p : Process) :
    Option Session :=
  match upgrade with
  | .error _ => none
  | .ok socket =>
    let c : client := { addr := p.nextAddr, user := (generateUniqueUser p.userIDCounter).1 }
    let rd := client.read c socket
    some
      { participant := c
        receive := makeChan messageBufferSize
        events := Event.join c :: rd.1 ++ (if rd.2 then [Event.leave c] else [])
        returned := rd.2
        process :=
          { userIDCounter := (generateUniqueUser p.userIDCounter).2
            nextAddr := p.nextAddr + 1 } }

/-- The type `http.Header`: values by canonical key. -/
abbrev Header := List (String × List String)

/-- The method `Header.Get` for a key that is already canonical: the first
value stored under the key, or the empty string. -/
def Header.Get (h : Header) (key : String) : String :=
  match h.lookup key with
  | some (v :: _) => v
  | _ => ""

/-- The part of `http.Request` that `CheckOrigin` reads. -/
structure Request where
  Header : Header

/-- The field `CheckOrigin` of `upgrader`. -/
def CheckOrigin (r : Request) : Bool :=
  r.Header.Get "Origin" == "http://localhost:3000"

/-! ## Sample data for the concrete checks -/

def alice : client := { addr := 1, user := "User1" }

def bob : client := { addr := 2, user := "User2" }

def carol : client := { addr := 3, user := "User3" }

/-- A room in which `alice` and `bob` are registered and nothing was sent. -/
def roomAliceBob : State :=
  { clients := [alice, bob], receive := fun _ => makeChan messageBufferSize,
    hub := HubPc.select, chat := ChatPc.receive, accesses := [] }

/-- Events that fill the queue of `bob` when his send pump takes nothing:
`bob` joins, `alice` joins, and 255 messages are forwarded; `bob` is sent the
`userJoined` envelope for `alice` and the 255 chat messages. -/
def fullRoomEvents : List Event :=
  Event.join bob :: Event.join alice :: List.replicate 255 (Event.forward (utf8 "hi"))

/-- A frame that is not well-formed UTF-8: `a`, `0xff`, `b`, `0xc3`. -/
def badFrame : Bytes := [97, 255, 98, 195]

/-! ## Predicates used by the statements -/

/-- What holds of the hub state between two events (`exec_inv`): `clients`
lists the keys of a map, so no key twice, and the channel of every registered
client is open. -/
def WellFormed (s : State) : Prop :=
  s.clients.Nodup ∧ ∀ c ∈ s.clients, (s.receive c).closed = false

/-- Scan of an event sequence given the clients already joined and already
left: a client is joined only if not joined before, and left only if joined
before and not left before. -/
def disciplinedFrom (joined left : List client) : List Event → Bool
  | [] => true
  | .join c :: rest => !(decide (c ∈ joined)) && disciplinedFrom (c :: joined) left rest
  | .leave c :: rest =>
    decide (c ∈ joined) && !(decide (c ∈ left)) && disciplinedFrom joined (c :: left) rest
  | .forward _ :: rest => disciplinedFrom joined left rest

/-- Event sequences as the calls of `ServeHTTP` produce them: each client is
joined at most once and left at most once, only after its join. -/
def Disciplined (evs : List Event) : Prop := disciplinedFrom [] [] evs = true

/-- The invariant behind `WellFormed` along an event sequence, given the
clients joined and left so far: the registered clients are those joined and
not left, only channels of clients that left are closed, and only joined
clients left. -/
def Inv (joined left : List client) (s : State) : Prop :=
  s.clients.Nodup ∧ (∀ c, c ∈ s.clients ↔ c ∈ joined ∧ c ∉ left) ∧
    (∀ c, c ∉ left → (s.receive c).closed = false) ∧ (∀ c ∈ left, c ∈ joined)

/-- The latest `Join` or `Leave` event that names `p` in the sequence is a
`Join`. -/
def latestJoined (p : client) (evs : List Event) : Prop :=
  evs.reverse.find? (fun e => decide (e = Event.join p ∨ e = Event.leave p))
    = some (Event.join p)

/-- What an event does to the participant set in `room.run`. -/
def applyEvent (m : List client) : Event → List client
  | .join c => mapSet m c
  | .leave c => mapDelete m c
  | .forward _ => m

/-- Value of a decimal numeral, digit by digit from the left. -/
def decodeDigits (cs : List Char) : Nat :=
  cs.foldl (fun acc ch => 10 * acc + (ch.toNat - 48)) 0

/-! ## Reading back what `jsonMarshal` writes -/

theorem unhex_hexDigit : ∀ x, x < 16 → unhex (hexDigit x) = some x := by
  decide

theorem prepend_prepend (a b : Bytes) (o : Option (Bytes × Bytes)) :
    prepend a (prepend b o) = prepend (a ++ b) o := by
  cases o <;> simp [prepend]

theorem prepend_nil (o : Option (Bytes × Bytes)) : prepend [] o = o := by
  cases o <;> simp [prepend]

theorem jsonUnquoteBody_literal (b : Nat) (X : Bytes) (h1 : 32 ≤ b) (h2 : b ≠ 34)
    (h3 : b ≠ 92) : jsonUnquoteBody (b :: X) = prepend [b] (jsonUnquoteBody X) := by
  rw [jsonUnquoteBody.eq_def]
  simp only [h2, h3, Nat.not_lt.mpr h1, if_false]

theorem jsonUnquoteBody_literals : ∀ (xs X : Bytes), (∀ x ∈ xs, 128 ≤ x) →
    jsonUnquoteBody (xs ++ X) = prepend xs (jsonUnquoteBody X) := by
  intro xs
  induction xs with
  | nil => intro X _; simp [prepend_nil]
  | cons a rest ih =>
    intro X h
    have ha : 128 ≤ a := h a (List.mem_cons_self _ _)
    rw [List.cons_append, jsonUnquoteBody_literal a _ (by omega) (by omega) (by omega),
      ih X (fun x hx => h x (List.mem_cons_of_mem _ hx)), prepend_prepend]
    rfl

theorem jsonUnquoteBody_escape (e c : Nat) (X : Bytes) (he : e ≠ 117)
    (hc : unescapeSimple e = some c) :
    jsonUnquoteBody (92 :: e :: X) = prepend [c] (jsonUnquoteBody X) := by
  rw [jsonUnquoteBody.eq_def]
  simp only [he, hc, if_false, if_true, Nat.reduceEqDiff]

theorem jsonUnquoteBody_hex (h1 h2 h3 h4 d1 d2 d3 d4 : Nat) (X : Bytes)
    (e1 : unhex h1 = some d1) (e2 : unhex h2 = some d2) (e3 : unhex h3 = some d3)
    (e4 : unhex h4 = some d4)
    (hs : ¬ (55296 ≤ d1 * 4096 + d2 * 256 + d3 * 16 + d4 ∧
      d1 * 4096 + d2 * 256 + d3 * 16 + d4 ≤ 57343)) :
    jsonUnquoteBody (92 :: 117 :: h1 :: h2 :: h3 :: h4 :: X) =
      prepend (utf8Encode (d1 * 4096 + d2 * 256 + d3 * 16 + d4)) (jsonUnquoteBody X) := by
  rw [jsonUnquoteBody.eq_def]
  simp only [e1, e2, e3, e4, hs, if_false, if_true, Nat.reduceEqDiff]

theorem jsonUnquoteBody_ascii (b : Nat) (X : Bytes) (hb : b < 128) :
    jsonUnquoteBody (jsonAscii b ++ X) = prepend [b] (jsonUnquoteBody X) := by
  unfold jsonAscii
  split
  · rename_i h
    rcases h with h | h <;> subst h <;>
      exact jsonUnquoteBody_escape _ _ X (by decide) (by decide)
  split
  · rename_i h; subst h; exact jsonUnquoteBody_escape 98 8 X (by decide) (by decide)
  split
  · rename_i h; subst h; exact jsonUnquoteBody_escape 102 12 X (by decide) (by decide)
  split
  · rename_i h; subst h; exact jsonUnquoteBody_escape 110 10 X (by decide) (by decide)
  split
  · rename_i h; subst h; exact jsonUnquoteBody_escape 114 13 X (by decide) (by decide)
  split
  · rename_i h; subst h; exact jsonUnquoteBody_escape 116 9 X (by decide) (by decide)
  split
  · have hq : b / 16 < 16 := by omega
    have hr : b % 16 < 16 := by omega
    have hv : 0 * 4096 + 0 * 256 + b / 16 * 16 + b % 16 = b := by omega
    have := jsonUnquoteBody_hex 48 48 (hexDigit (b / 16)) (hexDigit (b % 16)) 0 0 (b / 16)
      (b % 16) X (by decide) (by decide) (unhex_hexDigit _ hq) (unhex_hexDigit _ hr)
      (by omega)
    rw [hv] at this
    simp only [List.cons_append, List.nil_append]
    rw [this]
    simp [utf8Encode, hb]
  · rename_i h1 h2 h3 h4 h5 h6 h7
    exact jsonUnquoteBody_literal b X (by omega) (by omega) (by omega)

theorem decodeRune_conts (b : Nat) (rest : Bytes) (r size : Nat)
    (h : decodeRune b rest = some (r, size)) :
    128 ≤ b ∧ 1 ≤ size ∧ size - 1 ≤ rest.length ∧ ∀ x ∈ rest.take (size - 1), 128 ≤ x := by
  rcases rest with _ | ⟨b1, _ | ⟨b2, _ | ⟨b3, more⟩⟩⟩ <;> simp only [decodeRune] at h <;>
    split_ifs at h <;> simp only [Option.some.injEq, Prod.mk.injEq, reduceCtorEq] at h <;>
    obtain ⟨_, rfl⟩ := h <;>
    refine ⟨by omega, by omega, by simp, ?_⟩ <;>
    intro x hx <;> simp at hx <;> omega

theorem decodeRune_separator (b : Nat) (rest : Bytes) (r size : Nat)
    (h : decodeRune b rest = some (r, size)) (hr : r = 8232 ∨ r = 8233) :
    size = 3 ∧ b :: rest.take 2 = utf8Encode r := by
  rcases rest with _ | ⟨b1, _ | ⟨b2, _ | ⟨b3, more⟩⟩⟩ <;> simp only [decodeRune] at h <;>
    split_ifs at h <;> simp only [Option.some.injEq, Prod.mk.injEq, reduceCtorEq] at h <;>
    obtain ⟨hv, rfl⟩ := h <;>
    first
      | omega
      | (refine ⟨rfl, ?_⟩
         rcases hr with hr | hr <;> subst hr <;> simp [utf8Encode] <;> omega)

theorem jsonBody_skip : ∀ (k : Nat) (bs : Bytes), jsonBody k bs = jsonBody 0 (bs.drop k) := by
  intro k
  induction k with
  | zero => intro bs; rfl
  | succ k ih =>
    intro bs
    cases bs with
    | nil => rfl
    | cons b rest =>
      show jsonBody k rest = _
      rw [ih rest]
      rfl

theorem replaceInvalid_skip : ∀ (k : Nat) (bs : Bytes),
    replaceInvalid k bs = bs.take k ++ replaceInvalid 0 (bs.drop k) := by
  intro k
  induction k with
  | zero => intro bs; rfl
  | succ k ih =>
    intro bs
    cases bs with
    | nil => rfl
    | cons b rest =>
      show b :: replaceInvalid k rest = _
      rw [ih rest]
      rfl

theorem jsonUnquoteBody_jsonBody : ∀ (n : Nat) (bs : Bytes), bs.length ≤ n → ∀ tail : Bytes,
    jsonUnquoteBody (jsonBody 0 bs ++ 34 :: tail) = some (replaceInvalid 0 bs, tail) := by
  intro n
  induction n with
  | zero =>
    intro bs h tail
    have : bs = [] := List.length_eq_zero.mp (by omega)
    subst this
    rw [jsonUnquoteBody.eq_def]
    rfl
  | succ n ih =>
    intro bs h tail
    cases bs with
    | nil =>
      rw [jsonUnquoteBody.eq_def]
      rfl
    | cons b rest =>
      have hlen : rest.length ≤ n := by simpa using h
      by_cases hb : b < 128
      · have h1 : jsonBody 0 (b :: rest) = jsonAscii b ++ jsonBody 0 rest := by
          rw [jsonBody]; simp [hb]
        have h2 : replaceInvalid 0 (b :: rest) = b :: replaceInvalid 0 rest := by
          rw [replaceInvalid]; simp [hb]
        rw [h1, h2, List.append_assoc, jsonUnquoteBody_ascii b _ hb, ih rest hlen tail]
        rfl
      · cases hd : decodeRune b rest with
        | none =>
          have h1 : jsonBody 0 (b :: rest) =
              [92, 117, 102, 102, 102, 100] ++ jsonBody 0 rest := by
            rw [jsonBody]; simp [hb, hd]
          have h2 : replaceInvalid 0 (b :: rest) = [239, 191, 189] ++ replaceInvalid 0 rest := by
            rw [replaceInvalid]; simp [hb, hd]
          rw [h1, h2, List.append_assoc]
          have := jsonUnquoteBody_hex 102 102 102 100 15 15 15 13
            (jsonBody 0 rest ++ 34 :: tail) (by decide) (by decide) (by decide) (by decide)
            (by decide)
          simp only [List.cons_append, List.nil_append] at this ⊢
          rw [this, ih rest hlen tail]
          rfl
        | some p =>
          obtain ⟨r, size⟩ := p
          obtain ⟨hb128, hs1, hsl, hcont⟩ := decodeRune_conts b rest r size hd
          have hdrop : (rest.drop (size - 1)).length ≤ n := by
            rw [List.length_drop]; omega
          have h2 : replaceInvalid 0 (b :: rest) =
              b :: rest.take (size - 1) ++ replaceInvalid 0 (rest.drop (size - 1)) := by
            rw [replaceInvalid]
            simp only [hb, if_false, hd]
            rw [replaceInvalid_skip]
            rfl
          by_cases hsep : r = 8232 ∨ r = 8233
          · obtain ⟨hsz, henc⟩ := decodeRune_separator b rest r size hd hsep
            have h1 : jsonBody 0 (b :: rest) =
                [92, 117, 50, 48, 50, hexDigit (r % 16)] ++ jsonBody 0 (rest.drop (size - 1)) := by
              rw [jsonBody]
              simp only [hb, if_false, hd, hsep, if_true]
              rw [jsonBody_skip]
            have hx : unhex (hexDigit (r % 16)) = some (r % 16) :=
              unhex_hexDigit _ (Nat.mod_lt _ (by decide))
            have hval : 2 * 4096 + 0 * 256 + 2 * 16 + r % 16 = r := by
              rcases hsep with h | h <;> subst h <;> rfl
            have := jsonUnquoteBody_hex 50 48 50 (hexDigit (r % 16)) 2 0 2 (r % 16)
              (jsonBody 0 (rest.drop (size - 1)) ++ 34 :: tail) (by decide) (by decide)
              (by decide) hx (by omega)
            rw [hval] at this
            rw [h1, h2, List.append_assoc]
            simp only [List.cons_append, List.nil_append] at this ⊢
            rw [this, ih _ hdrop tail]
            subst hsz
            simp only [prepend, ← henc]
            rfl
          · have h1 : jsonBody 0 (b :: rest) =
                (b :: rest.take (size - 1)) ++ jsonBody 0 (rest.drop (size - 1)) := by
              rw [jsonBody]
              simp only [hb, if_false, hd, hsep]
              rw [jsonBody_skip]
            rw [h1, h2, List.append_assoc, jsonUnquoteBody_literals _ _
              (by
                intro x hx
                rcases List.mem_cons.mp hx with h | h
                · omega
                · exact hcont x h),
              ih _ hdrop tail]
            rfl

theorem jsonUnquote_jsonString (s tail : Bytes) :
    jsonUnquote (jsonString s ++ tail) = some (replaceInvalid 0 s, tail) := by
  unfold jsonString
  simp only [List.cons_append, List.append_assoc, jsonUnquote, if_true]
  exact jsonUnquoteBody_jsonBody s.length s (Nat.le_refl _) tail

theorem expect_append : ∀ (p X : Bytes), expect p (p ++ X) = some X := by
  intro p
  induction p with
  | nil => intro X; cases X <;> rfl
  | cons a rest ih =>
    intro X
    simp only [List.cons_append, expect, if_true]
    exact ih X

theorem jsonUnmarshal_jsonMarshal (m : ClientMessage) (b : Bytes) (h : jsonMarshal m = .ok b) :
    jsonUnmarshal b = some
      { Type_ := replaceInvalid 0 m.Type_, Message := replaceInvalid 0 m.Message,
        User := replaceInvalid 0 m.User } := by
  simp only [jsonMarshal, Except.ok.injEq] at h
  subst h
  unfold jsonUnmarshal
  simp only [List.append_assoc, expect_append, jsonUnquote_jsonString]
  simp

theorem replaceInvalid_encode (c : Char) (R : Bytes) :
    replaceInvalid 0 (utf8Encode c.toNat ++ R) = utf8Encode c.toNat ++ replaceInvalid 0 R := by
  have hv : c.toNat < 55296 ∨ (57343 < c.toNat ∧ c.toNat < 1114112) := c.valid
  generalize c.toNat = n at hv
  unfold utf8Encode
  split
  · rename_i h
    simp only [List.cons_append, List.nil_append]
    rw [replaceInvalid]
    simp [h]
  split
  · rename_i h1 h2
    have hd : decodeRune (192 + n / 64) ((128 + n % 64) :: R)
        = some ((192 + n / 64 - 192) * 64 + (128 + n % 64 - 128), 2) := by
      simp only [decodeRune]
      rw [if_pos ⟨by omega, by omega⟩, if_pos ⟨by omega, by omega⟩]
    simp only [List.cons_append, List.nil_append]
    rw [replaceInvalid]
    simp only [show ¬ (192 + n / 64 < 128) by omega, if_false, hd]
    rfl
  split
  · rename_i h1 h2 h3
    have hd : decodeRune (224 + n / 4096) ((128 + n / 64 % 64) :: (128 + n % 64) :: R)
        = some ((224 + n / 4096 - 224) * 4096 + (128 + n / 64 % 64 - 128) * 64
            + (128 + n % 64 - 128), 3) := by
      simp only [decodeRune]
      rw [if_neg (by omega), if_pos ⟨by omega, by omega⟩,
        if_pos ⟨by split_ifs <;> omega, by split_ifs <;> omega, by omega, by omega⟩]
    simp only [List.cons_append, List.nil_append]
    rw [replaceInvalid]
    simp only [show ¬ (224 + n / 4096 < 128) by omega, if_false, hd]
    rfl
  · rename_i h1 h2 h3
    have hd : decodeRune (240 + n / 262144)
          ((128 + n / 4096 % 64) :: (128 + n / 64 % 64) :: (128 + n % 64) :: R)
        = some ((240 + n / 262144 - 240) * 262144 + (128 + n / 4096 % 64 - 128) * 4096
            + (128 + n / 64 % 64 - 128) * 64 + (128 + n % 64 - 128), 4) := by
      simp only [decodeRune]
      rw [if_neg (by omega), if_neg (by omega), if_pos ⟨by omega, by omega⟩,
        if_pos ⟨by split_ifs <;> omega, by split_ifs <;> omega, by omega, by omega, by omega,
          by omega⟩]
    simp only [List.cons_append, List.nil_append]
    rw [replaceInvalid]
    simp only [show ¬ (240 + n / 262144 < 128) by omega, if_false, hd]
    rfl

theorem replaceInvalid_utf8 (t : String) : replaceInvalid 0 (utf8 t) = utf8 t := by
  unfold utf8
  generalize t.data = cs
  induction cs with
  | nil => rfl
  | cons c rest ih =>
    simp only [List.flatMap_cons]
    rw [replaceInvalid_encode, ih]

theorem jsonUnmarshal_text (ty msg usr : String) (b : Bytes)
    (h : jsonMarshal { Type_ := utf8 ty, Message := utf8 msg, User := utf8 usr } = .ok b) :
    jsonUnmarshal b = some { Type_ := utf8 ty, Message := utf8 msg, User := utf8 usr } := by
  rw [jsonUnmarshal_jsonMarshal _ b h]
  simp only [replaceInvalid_utf8]

/-! ## Lemmas on the loop of `broadcastMessage` -/

theorem nodup_mapSet (m : List client) (c : client) (h : m.Nodup) : (mapSet m c).Nodup := by
  unfold mapSet
  split
  · exact h
  · rename_i hc
    exact List.Nodup.append h (List.nodup_singleton c) (by simpa using hc)

theorem mem_mapSet (m : List client) (c q : client) : q ∈ mapSet m c ↔ q ∈ m ∨ q = c := by
  unfold mapSet
  split
  · rename_i hc
    constructor
    · exact Or.inl
    · rintro (h | h)
      · exact h
      · exact h ▸ hc
  · simp

theorem mem_mapDelete (m : List client) (c q : client) : q ∈ mapDelete m c ↔ q ∈ m ∧ q ≠ c := by
  simp [mapDelete]

theorem nodup_mapDelete (m : List client) (c : client) (h : m.Nodup) :
    (mapDelete m c).Nodup :=
  List.Nodup.filter _ h

theorem send_of_room (ch : Chan) (v : Bytes) (h : ch.closed = false)
    (hr : ch.buf.length < ch.cap) :
    ch.send v =
      .ok { cap := ch.cap, buf := ch.buf ++ [v], sent := ch.sent ++ [v], closed := ch.closed } := by
  simp [Chan.send, h, hr]

theorem send_closed (ch ch1 : Chan) (v : Bytes) (h : ch.send v = .ok ch1) :
    ch1.closed = ch.closed := by
  unfold Chan.send at h
  split at h
  · cases h
  · split at h
    · cases h; rfl
    · cases h

theorem step_closed (clients : List client) (receive r1 : client → Chan) (b : Broadcast)
    (next : Option Broadcast) (h : b.step clients receive = .ok (r1, next)) :
    ∀ c, (r1 c).closed = (receive c).closed := by
  intro c
  unfold Broadcast.step at h
  split at h
  · cases h; rfl
  · split at h <;> cases h <;> rfl
  · rename_i k rest _
    split at h
    · rename_i ch hs
      cases h
      by_cases hck : c = k
      · subst hck
        rw [Function.update_same]
        exact send_closed _ _ _ hs
      · rw [Function.update_noteq hck]
    · cases h
    · cases h

theorem step_next_take (clients : List client) (receive : client → Chan)
    (sender : Option client) (b : Bytes) (k : client) (rest : List client)
    (h : k ∈ clients ∧ some k ≠ sender) :
    Broadcast.step clients receive { sender := sender, msgBytes := b, l := Loop.next (k :: rest) }
      = .ok (receive, some { sender := sender, msgBytes := b, l := Loop.send k rest }) := by
  unfold Broadcast.step
  exact if_pos h

theorem step_next_skip (clients : List client) (receive : client → Chan)
    (sender : Option client) (b : Bytes) (k : client) (rest : List client)
    (h : ¬ (k ∈ clients ∧ some k ≠ sender)) :
    Broadcast.step clients receive { sender := sender, msgBytes := b, l := Loop.next (k :: rest) }
      = .ok (receive, some { sender := sender, msgBytes := b, l := Loop.next rest }) := by
  unfold Broadcast.step
  exact if_neg h

theorem step_send_room (clients : List client) (receive : client → Chan)
    (sender : Option client) (b : Bytes) (k : client) (rest : List client)
    (h : (receive k).closed = false) (hr : (receive k).buf.length < (receive k).cap) :
    Broadcast.step clients receive { sender := sender, msgBytes := b, l := Loop.send k rest }
      = .ok (Function.update receive k
              { cap := (receive k).cap, buf := (receive k).buf ++ [b],
                sent := (receive k).sent ++ [b], closed := (receive k).closed },
            some { sender := sender, msgBytes := b, l := Loop.next rest }) := by
  unfold Broadcast.step
  simp only [send_of_room _ _ h hr]

theorem finish_of_step_some (clients : List client) (n : Nat) (receive r1 : client → Chan)
    (b b1 : Broadcast) (h : b.step clients receive = .ok (r1, some b1)) :
    Broadcast.finish clients (n + 1) receive b = Broadcast.finish clients n r1 b1 := by
  simp only [Broadcast.finish, h]

theorem finish_of_step_none (clients : List client) (n : Nat) (receive r1 : client → Chan)
    (b : Broadcast) (h : b.step clients receive = .ok (r1, none)) :
    Broadcast.finish clients (n + 1) receive b = .ok (r1, none) := by
  simp only [Broadcast.finish, h]

theorem finish_next (clients : List client) (sender : Option client) (b : Bytes) :
    ∀ (rest : List client) (n : Nat) (receive : client → Chan),
      2 * rest.length + 1 ≤ n → rest.Nodup →
      (∀ k ∈ rest, k ∈ clients → some k ≠ sender →
        (receive k).closed = false ∧ (receive k).buf.length < (receive k).cap) →
      ∃ r1, Broadcast.finish clients n receive
            { sender := sender, msgBytes := b, l := Loop.next rest } = .ok (r1, none) ∧
        ∀ k, r1 k =
          if k ∈ rest ∧ k ∈ clients ∧ some k ≠ sender then
            { cap := (receive k).cap, buf := (receive k).buf ++ [b],
              sent := (receive k).sent ++ [b], closed := (receive k).closed }
          else receive k := by
  intro rest
  induction rest with
  | nil =>
    intro n receive hn _ _
    obtain ⟨m, rfl⟩ : ∃ m, n = m + 1 := ⟨n - 1, by omega⟩
    exact ⟨receive, finish_of_step_none _ _ _ _ _ rfl, by simp⟩
  | cons a rest ih =>
    intro n receive hn hnd hopen
    have hna : a ∉ rest := (List.nodup_cons.mp hnd).1
    have hrest : rest.Nodup := (List.nodup_cons.mp hnd).2
    simp only [List.length_cons] at hn
    obtain ⟨m, rfl⟩ : ∃ m, n = m + 1 + 1 := ⟨n - 2, by omega⟩
    by_cases hs : a ∈ clients ∧ some a ≠ sender
    · obtain ⟨ha, hroom⟩ := hopen a (List.mem_cons_self _ _) hs.1 hs.2
      obtain ⟨r1, hr1, hval⟩ := ih m
        (Function.update receive a
          { cap := (receive a).cap, buf := (receive a).buf ++ [b],
            sent := (receive a).sent ++ [b], closed := (receive a).closed })
        (by omega) hrest
        (by
          intro c hc hcc hcs
          have hca : c ≠ a := fun h => hna (h ▸ hc)
          rw [Function.update_noteq hca]
          exact hopen c (List.mem_cons_of_mem _ hc) hcc hcs)
      refine ⟨r1, ?_, ?_⟩
      · rw [finish_of_step_some _ _ _ _ _ _ (step_next_take _ _ _ _ _ _ hs),
          finish_of_step_some _ _ _ _ _ _ (step_send_room _ _ _ _ _ _ ha hroom)]
        exact hr1
      · intro c
        rw [hval c]
        by_cases hca : c = a
        · subst hca
          simp [hna, hs]
        · simp [hca, Function.update_noteq hca]
    · obtain ⟨r1, hr1, hval⟩ := ih (m + 1) receive (by omega) hrest
        (fun c hc hcc hcs => hopen c (List.mem_cons_of_mem _ hc) hcc hcs)
      refine ⟨r1, ?_, ?_⟩
      · rw [finish_of_step_some _ _ _ _ _ _ (step_next_skip _ _ _ _ _ _ hs)]
        exact hr1
      · intro c
        rw [hval c]
        by_cases hca : c = a
        · subst hca
          have : ¬ (c ∈ clients ∧ some c ≠ sender) := hs
          simp [hna, this]
        · simp [hca]

/-! ## Turns of `run` and of the chat processor taken alone -/

theorem run_join_ok (s : State) (p : client) (hsel : s.hub = HubPc.select)
    (hnd : s.clients.Nodup)
    (hopen : ∀ q ∈ s.clients, q ≠ p →
      (s.receive q).closed = false ∧ (s.receive q).buf.length < (s.receive q).cap) :
    ∃ s1 b, jsonMarshal
          { Type_ := utf8 "userJoined"
            Message := utf8 (p.user ++ " joined the chat.")
            User := utf8 p.user } = .ok b ∧
      run s (Event.join p) = .ok s1 ∧ s1.clients = mapSet s.clients p ∧
      s1.hub = HubPc.select ∧ s1.chat = s.chat ∧
      ∀ k, s1.receive k =
        if k ∈ mapSet s.clients p ∧ k ≠ p then
          { cap := (s.receive k).cap, buf := (s.receive k).buf ++ [b],
            sent := (s.receive k).sent ++ [b], closed := (s.receive k).closed }
        else s.receive k := by
  obtain ⟨b, hb⟩ : ∃ b, jsonMarshal
          { Type_ := utf8 "userJoined"
            Message := utf8 (p.user ++ " joined the chat.")
            User := utf8 p.user } = .ok b := ⟨_, rfl⟩
  obtain ⟨r1, hr1, hval⟩ := finish_next (mapSet s.clients p) (some p) b (mapSet s.clients p)
    (2 * (mapSet s.clients p).length + 1) s.receive (Nat.le_refl _) (nodup_mapSet _ _ hnd)
    (by
      intro k hk _ hkp
      have hne : k ≠ p := fun h => hkp (congrArg some h)
      rcases (mem_mapSet _ _ _).mp hk with h1 | h1
      · exact hopen k h1 hne
      · exact absurd h1 hne)
  refine ⟨{ clients := mapSet s.clients p, receive := r1, hub := HubPc.select, chat := s.chat,
            accesses := s.accesses ++
              [(Goroutine.hubLoop, MapAccess.write), (Goroutine.hubLoop, MapAccess.read)] },
    b, hb, ?_, rfl, rfl, rfl, ?_⟩
  · simp only [run, recv, hsel, broadcastUserJoined, broadcastMessage, hb, HubPc.after,
      rangeAccess, hubFinish, Broadcast.fuel, hr1]
  · intro k
    show r1 k = _
    rw [hval k]
    by_cases hk : k ∈ mapSet s.clients p
    · by_cases hkp : k = p
      · subst hkp; simp
      · have : some k ≠ some p := fun h => hkp (Option.some.inj h)
        simp [hk, hkp, this]
    · simp [hk]

theorem run_leave_ok (s : State) (p : client) (hsel : s.hub = HubPc.select)
    (hnd : s.clients.Nodup) (hp : (s.receive p).closed = false)
    (hopen : ∀ q ∈ s.clients, q ≠ p →
      (s.receive q).closed = false ∧ (s.receive q).buf.length < (s.receive q).cap) :
    ∃ s1 b, jsonMarshal
          { Type_ := utf8 "userLeft"
            Message := utf8 (p.user ++ " left the chat.")
            User := utf8 p.user } = .ok b ∧
      run s (Event.leave p) = .ok s1 ∧ s1.clients = mapDelete s.clients p ∧
      s1.hub = HubPc.select ∧ s1.chat = s.chat ∧
      ∀ k, s1.receive k =
        if k = p then
          { cap := (s.receive p).cap, buf := (s.receive p).buf, sent := (s.receive p).sent,
            closed := true }
        else if k ∈ s.clients then
          { cap := (s.receive k).cap, buf := (s.receive k).buf ++ [b],
            sent := (s.receive k).sent ++ [b], closed := (s.receive k).closed }
        else s.receive k := by
  obtain ⟨b, hb⟩ : ∃ b, jsonMarshal
          { Type_ := utf8 "userLeft"
            Message := utf8 (p.user ++ " left the chat.")
            User := utf8 p.user } = .ok b := ⟨_, rfl⟩
  obtain ⟨r1, hr1, hval⟩ := finish_next (mapDelete s.clients p) (some p) b (mapDelete s.clients p)
    (2 * (mapDelete s.clients p).length + 1)
    (Function.update s.receive p
      { cap := (s.receive p).cap, buf := (s.receive p).buf, sent := (s.receive p).sent,
        closed := true })
    (Nat.le_refl _) (nodup_mapDelete _ _ hnd)
    (by
      intro k hk _ _
      have hk1 := (mem_mapDelete _ _ _).mp hk
      rw [Function.update_noteq hk1.2]
      exact hopen k hk1.1 hk1.2)
  refine ⟨{ clients := mapDelete s.clients p, receive := r1, hub := HubPc.select,
            chat := s.chat,
            accesses := s.accesses ++
              [(Goroutine.hubLoop, MapAccess.write), (Goroutine.hubLoop, MapAccess.read)] },
    b, hb, ?_, rfl, rfl, rfl, ?_⟩
  · simp only [run, recv, hsel, Chan.close, hp, Bool.false_eq_true, if_false,
      broadcastUserLeft, broadcastMessage, hb, HubPc.after, rangeAccess, hubFinish,
      Broadcast.fuel]
    rw [hr1]
  · intro k
    show r1 k = _
    rw [hval k]
    by_cases hkp : k = p
    · subst hkp
      simp [mem_mapDelete]
    · have : some k ≠ some p := fun h => hkp (Option.some.inj h)
      by_cases hk : k ∈ s.clients
      · simp [hkp, hk, this, mem_mapDelete, Function.update_noteq hkp]
      · simp [hkp, hk, mem_mapDelete, Function.update_noteq hkp]

theorem run_forward_ok (s : State) (M : Bytes) (hsel : s.hub = HubPc.select)
    (hchat : s.chat = ChatPc.receive) :
    run s (Event.forward M) =
      .ok { clients := s.clients, receive := s.receive, hub := HubPc.select,
            chat := ChatPc.got
              { Type_ := utf8 "chatMessage", Message := M, User := utf8 "SenderUsername" },
            accesses := s.accesses } := by
  simp only [run, recv, hsel, hubFinish, hubStep, hchat]

theorem chatFinish_got_ok (s : State) (m : ClientMessage) (hgot : s.chat = ChatPc.got m)
    (hnd : s.clients.Nodup)
    (hopen : ∀ q ∈ s.clients,
      (s.receive q).closed = false ∧ (s.receive q).buf.length < (s.receive q).cap) :
    ∃ s1 b, jsonMarshal m = .ok b ∧ chatFinish s = .ok s1 ∧ s1.clients = s.clients ∧
      s1.hub = s.hub ∧ s1.chat = ChatPc.receive ∧
      s1.accesses = s.accesses ++ [(Goroutine.chatProcessor, MapAccess.read)] ∧
      ∀ k, s1.receive k =
        if k ∈ s.clients then
          { cap := (s.receive k).cap, buf := (s.receive k).buf ++ [b],
            sent := (s.receive k).sent ++ [b], closed := (s.receive k).closed }
        else s.receive k := by
  obtain ⟨b, hb⟩ : ∃ b, jsonMarshal m = .ok b := ⟨_, rfl⟩
  obtain ⟨r1, hr1, hval⟩ := finish_next s.clients none b s.clients
    (2 * s.clients.length + 1) s.receive (Nat.le_refl _) hnd
    (fun k hk _ _ => hopen k hk)
  refine ⟨{ clients := s.clients, receive := r1, hub := s.hub, chat := ChatPc.receive,
            accesses := s.accesses ++ [(Goroutine.chatProcessor, MapAccess.read)] },
    b, hb, ?_, rfl, rfl, rfl, rfl, ?_⟩
  · simp only [chatFinish, hgot, startChatProcessor, broadcastMessage, hb, ChatPc.after,
      rangeAccess, chatLoop, Broadcast.fuel, hr1]
  · intro k
    show r1 k = _
    rw [hval k]
    by_cases hk : k ∈ s.clients <;> simp [hk]

/-! ## Interleavings: what each step keeps -/

theorem hubStep_keeps (s s1 : State) (h : hubStep s = .ok s1) :
    s1.clients = s.clients ∧ ∀ c, (s1.receive c).closed = (s.receive c).closed := by
  unfold hubStep at h
  split at h
  · cases h
  · split at h
    · cases h; exact ⟨rfl, fun _ => rfl⟩
    · cases h
  · split at h
    · rename_i receive next hs
      cases h
      exact ⟨rfl, step_closed _ _ _ _ _ hs⟩
    · cases h
    · cases h

theorem startChatProcessor_keeps (s s1 : State) (h : startChatProcessor s = .ok s1) :
    s1.clients = s.clients ∧ ∀ c, (s1.receive c).closed = (s.receive c).closed := by
  unfold startChatProcessor at h
  split at h
  · cases h
  · cases h; exact ⟨rfl, fun _ => rfl⟩
  · split at h
    · rename_i receive next hs
      cases h
      exact ⟨rfl, step_closed _ _ _ _ _ hs⟩
    · cases h
    · cases h

theorem pump_keeps (s s1 : State) (c : client) (h : pump s c = .ok s1) :
    s1.clients = s.clients ∧ ∀ k, (s1.receive k).closed = (s.receive k).closed := by
  unfold pump at h
  split at h
  · rename_i ch hr
    cases h
    refine ⟨rfl, fun k => ?_⟩
    show (Function.update s.receive c ch k).closed = _
    by_cases hk : k = c
    · subst hk
      rw [Function.update_same]
      unfold Chan.recv at hr
      split at hr
      · cases hr; rfl
      · cases hr
    · rw [Function.update_noteq hk]
  · cases h

theorem recv_clients (s s1 : State) (e : Event) (h : recv s e = .ok s1) :
    s1.clients = applyEvent s.clients e := by
  unfold recv at h
  split at h
  · cases e with
    | join c => cases h; rfl
    | leave c =>
      simp only at h
      split at h
      · cases h; rfl
      · cases h
      · cases h
    | forward m => cases h; rfl
  · cases h

theorem recv_join_receive (s s1 : State) (c : client) (h : recv s (Event.join c) = .ok s1) :
    s1.receive = s.receive := by
  unfold recv at h
  split at h
  · cases h; rfl
  · cases h

theorem recv_forward_receive (s s1 : State) (m : Bytes)
    (h : recv s (Event.forward m) = .ok s1) : s1.receive = s.receive := by
  unfold recv at h
  split at h
  · cases h; rfl
  · cases h

theorem recv_leave_receive (s s1 : State) (c : client) (h : recv s (Event.leave c) = .ok s1) :
    ∀ k, (s1.receive k).closed = if k = c then true else (s.receive k).closed := by
  unfold recv at h
  split at h
  · simp only at h
    split at h
    · rename_i ch hc
      cases h
      intro k
      show (Function.update s.receive c ch k).closed = _
      by_cases hk : k = c
      · subst hk
        rw [Function.update_same, if_pos rfl]
        unfold Chan.close at hc
        split at hc
        · cases hc
        · cases hc; rfl
      · rw [Function.update_noteq hk, if_neg hk]
    · cases h
    · cases h
  · cases h

theorem step_keeps (s s1 : State) (a : Action)
    (ha : ∀ c, a ≠ Action.recv (Event.join c) ∧ a ≠ Action.recv (Event.leave c))
    (h : step s a = .ok s1) : s1.clients = s.clients := by
  cases a with
  | recv e =>
    cases e with
    | join c => exact absurd rfl (ha c).1
    | leave c => exact absurd rfl (ha c).2
    | forward m => exact recv_clients s s1 (Event.forward m) h
  | hub => exact (hubStep_keeps s s1 h).1
  | chat => exact (startChatProcessor_keeps s s1 h).1
  | pump c => exact (pump_keeps s s1 c h).1

theorem exec_cons (s : State) (a : Action) (rest : List Action) (s2 : State)
    (h : exec s (a :: rest) = .ok s2) : ∃ s1, step s a = .ok s1 ∧ exec s1 rest = .ok s2 := by
  simp only [exec] at h
  split at h
  · rename_i s1 hs
    exact ⟨s1, hs, h⟩
  · cases h
  · cases h

theorem exec_clients : ∀ (sched : List Action) (s s1 : State), exec s sched = .ok s1 →
    s1.clients = (events sched).foldl applyEvent s.clients := by
  intro sched
  induction sched with
  | nil =>
    intro s s1 h
    cases h
    rfl
  | cons a rest ih =>
    intro s s2 h
    obtain ⟨s1, hs, hrest⟩ := exec_cons s a rest s2 h
    rw [ih s1 s2 hrest]
    cases a with
    | recv e =>
      show _ = List.foldl applyEvent (applyEvent s.clients e) (events rest)
      rw [recv_clients s s1 e hs]
    | hub =>
      show _ = List.foldl applyEvent s.clients (events rest)
      rw [(hubStep_keeps s s1 hs).1]
    | chat =>
      show _ = List.foldl applyEvent s.clients (events rest)
      rw [(startChatProcessor_keeps s s1 hs).1]
    | pump c =>
      show _ = List.foldl applyEvent s.clients (events rest)
      rw [(pump_keeps s s1 c hs).1]

theorem latestJoined_snoc (p : client) (evs : List Event) (e : Event) :
    latestJoined p (evs ++ [e]) ↔
      e = Event.join p ∨ (e ≠ Event.join p ∧ e ≠ Event.leave p ∧ latestJoined p evs) := by
  unfold latestJoined
  rw [List.reverse_append, List.reverse_singleton, List.singleton_append, List.find?_cons]
  by_cases h1 : e = Event.join p
  · simp [h1]
  · by_cases h2 : e = Event.leave p
    · simp [h2]
    · simp [h1, h2]

theorem mem_foldl_applyEvent (p : client) : ∀ (evs : List Event) (m : List client),
    p ∈ evs.foldl applyEvent m ↔
      latestJoined p evs ∨ (p ∈ m ∧ ∀ e ∈ evs, e ≠ Event.join p ∧ e ≠ Event.leave p) := by
  intro evs
  induction evs using List.reverseRecOn with
  | nil =>
    intro m
    simp [latestJoined]
  | append_singleton evs e ih =>
    intro m
    rw [List.foldl_append, List.foldl_cons, List.foldl_nil, latestJoined_snoc]
    cases e with
    | join c =>
      show p ∈ mapSet _ c ↔ _
      rw [mem_mapSet, ih m]
      by_cases hc : c = p
      · subst hc
        simp
      · have h1 : Event.join c ≠ Event.join p := fun h => hc (Event.join.inj h)
        have h2 : p ≠ c := fun h => hc h.symm
        simp only [h1, h2, false_or, or_false, ne_eq, not_false_eq_true, true_and,
          reduceCtorEq, List.mem_append, List.mem_singleton]
        constructor
        · rintro (h | ⟨h3, h4⟩)
          · exact Or.inl h
          · exact Or.inr ⟨h3, fun e he => by
              rcases he with he | he
              · exact h4 e he
              · subst he; exact ⟨h1, by simp⟩⟩
        · rintro (h | ⟨h3, h4⟩)
          · exact Or.inl h
          · exact Or.inr ⟨h3, fun e he => h4 e (Or.inl he)⟩
    | leave c =>
      show p ∈ mapDelete _ c ↔ _
      rw [mem_mapDelete, ih m]
      by_cases hc : c = p
      · subst hc
        constructor
        · rintro ⟨_, h⟩
          exact absurd rfl h
        · intro h
          exfalso
          rcases h with (h | ⟨_, h, _⟩) | ⟨_, h⟩
          · cases h
          · exact h rfl
          · exact (h (Event.leave c) (by simp)).2 rfl
      · have h1 : Event.leave c ≠ Event.leave p := fun h => hc (Event.leave.inj h)
        have h2 : p ≠ c := fun h => hc h.symm
        simp only [h1, h2, false_or, ne_eq, not_false_eq_true, true_and, and_true,
          reduceCtorEq, List.mem_append, List.mem_singleton]
        constructor
        · rintro (h | ⟨h3, h4⟩)
          · exact Or.inl h
          · exact Or.inr ⟨h3, fun e he => by
              rcases he with he | he
              · exact h4 e he
              · subst he; exact ⟨by simp, h1⟩⟩
        · rintro (h | ⟨h3, h4⟩)
          · exact Or.inl h
          · exact Or.inr ⟨h3, fun e he => h4 e (Or.inl he)⟩
    | forward msg =>
      show p ∈ List.foldl applyEvent m evs ↔ _
      rw [ih m]
      simp only [reduceCtorEq, false_or, ne_eq, not_false_eq_true, true_and,
        List.mem_append, List.mem_singleton]
      constructor
      · rintro (h | ⟨h3, h4⟩)
        · exact Or.inl h
        · exact Or.inr ⟨h3, fun e he => by
            rcases he with he | he
            · exact h4 e he
            · subst he; exact ⟨by simp, by simp⟩⟩
      · rintro (h | ⟨h3, h4⟩)
        · exact Or.inl h
        · exact Or.inr ⟨h3, fun e he => h4 e (Or.inl he)⟩

theorem latestJoined_mem (p : client) (evs : List Event) (h : latestJoined p evs) :
    Event.join p ∈ evs := by
  unfold latestJoined at h
  have := List.mem_of_find?_eq_some h
  simpa using this

theorem latestJoined_of_join (p : client) (evs : List Event) (hj : Event.join p ∈ evs)
    (hl : Event.leave p ∉ evs) : latestJoined p evs := by
  unfold latestJoined
  cases hf : evs.reverse.find? (fun e => decide (e = Event.join p ∨ e = Event.leave p)) with
  | none =>
    have := List.find?_eq_none.mp hf (Event.join p) (by simpa using hj)
    simp at this
  | some e =>
    have h1 := List.find?_some hf
    have h2 : e ∈ evs := by simpa using List.mem_of_find?_eq_some hf
    simp only [decide_eq_true_eq] at h1
    rcases h1 with h1 | h1
    · rw [h1]
    · exact absurd (h1 ▸ h2) hl

/-! ## The invariant along interleavings -/

theorem inv_newRoom : Inv [] [] newRoom := by
  refine ⟨List.nodup_nil, fun c => ?_, fun c _ => rfl, fun c hc => ?_⟩
  · simp [newRoom]
  · cases hc

theorem inv_of_keeps (joined left : List client) (s s1 : State) (h : Inv joined left s)
    (hk : s1.clients = s.clients ∧ ∀ c, (s1.receive c).closed = (s.receive c).closed) :
    Inv joined left s1 := by
  obtain ⟨hnd, hmem, hopen, hsub⟩ := h
  refine ⟨hk.1 ▸ hnd, fun c => by rw [hk.1]; exact hmem c, fun c hc => ?_, hsub⟩
  rw [hk.2 c]
  exact hopen c hc

theorem exec_inv : ∀ (sched : List Action) (joined left : List client) (s s2 : State),
    Inv joined left s → disciplinedFrom joined left (events sched) = true →
    exec s sched = .ok s2 → WellFormed s2 := by
  intro sched
  induction sched with
  | nil =>
    intro joined left s s2 h _ hx
    cases hx
    exact ⟨h.1, fun c hc => h.2.2.1 c ((h.2.1 c).mp hc).2⟩
  | cons a rest ih =>
    intro joined left s s2 h hd hx
    obtain ⟨s1, hs, hrest⟩ := exec_cons s a rest s2 hx
    cases a with
    | hub => exact ih joined left s1 s2 (inv_of_keeps _ _ _ _ h (hubStep_keeps s s1 hs)) hd hrest
    | chat =>
      exact ih joined left s1 s2 (inv_of_keeps _ _ _ _ h (startChatProcessor_keeps s s1 hs)) hd
        hrest
    | pump c => exact ih joined left s1 s2 (inv_of_keeps _ _ _ _ h (pump_keeps s s1 c hs)) hd hrest
    | recv e =>
      have hcl := recv_clients s s1 e hs
      obtain ⟨hnd, hmem, hopen, hsub⟩ := h
      cases e with
      | join c =>
        simp only [events, disciplinedFrom, Bool.and_eq_true, Bool.not_eq_true',
          decide_eq_false_iff_not] at hd
        have hrc := recv_join_receive s s1 c hs
        have hcl' : c ∉ left := fun h => hd.1 (hsub c h)
        refine ih (c :: joined) left s1 s2 ⟨?_, ?_, ?_, ?_⟩ hd.2 hrest
        · rw [hcl]
          exact nodup_mapSet _ _ hnd
        · intro q
          rw [hcl]
          show q ∈ mapSet s.clients c ↔ _
          rw [mem_mapSet, hmem q, List.mem_cons]
          constructor
          · rintro (h1 | h1)
            · exact ⟨Or.inr h1.1, h1.2⟩
            · exact ⟨Or.inl h1, h1 ▸ hcl'⟩
          · rintro ⟨h1 | h1, h2⟩
            · exact Or.inr h1
            · exact Or.inl ⟨h1, h2⟩
        · intro q hq
          rw [hrc]
          exact hopen q hq
        · intro q hq
          exact List.mem_cons_of_mem _ (hsub q hq)
      | leave c =>
        simp only [events, disciplinedFrom, Bool.and_eq_true, Bool.not_eq_true',
          decide_eq_false_iff_not, decide_eq_true_eq] at hd
        have hrc := recv_leave_receive s s1 c hs
        refine ih joined (c :: left) s1 s2 ⟨?_, ?_, ?_, ?_⟩ hd.2 hrest
        · rw [hcl]
          exact nodup_mapDelete _ _ hnd
        · intro q
          rw [hcl]
          show q ∈ mapDelete s.clients c ↔ _
          rw [mem_mapDelete, hmem q, List.mem_cons]
          constructor
          · rintro ⟨⟨h1, h2⟩, h3⟩
            exact ⟨h1, fun h => h.elim h3 h2⟩
          · rintro ⟨h1, h2⟩
            exact ⟨⟨h1, fun h => h2 (Or.inr h)⟩, fun h => h2 (Or.inl h)⟩
        · intro q hq
          have hqc : q ≠ c := fun h => hq (h ▸ List.mem_cons_self _ _)
          rw [hrc q, if_neg hqc]
          exact hopen q (fun h => hq (List.mem_cons_of_mem _ h))
        · intro q hq
          rcases List.mem_cons.mp hq with h1 | h1
          · exact h1 ▸ hd.1.1
          · exact hsub q h1
      | forward m =>
        simp only [events, disciplinedFrom] at hd
        have hrc := recv_forward_receive s s1 m hs
        refine ih joined left s1 s2 ⟨hcl ▸ hnd, ?_, ?_, hsub⟩ hd hrest
        · intro q
          rw [hcl]
          exact hmem q
        · intro q hq
          rw [hrc]
          exact hopen q hq

/-! ## The turns taken alone are interleavings -/

theorem exec_append (s : State) (a b : List Action) (s1 s2 : State)
    (h1 : exec s a = .ok s1) (h2 : exec s1 b = .ok s2) : exec s (a ++ b) = .ok s2 := by
  induction a generalizing s with
  | nil =>
    cases h1
    exact h2
  | cons x rest ih =>
    obtain ⟨s0, hs, hrest⟩ := exec_cons s x rest s1 h1
    simp only [List.cons_append, exec, hs]
    exact ih s0 hrest

theorem events_append (a b : List Action) : events (a ++ b) = events a ++ events b := by
  induction a with
  | nil => rfl
  | cons x rest ih =>
    cases x <;> simp [events, ih]

theorem events_replicate_hub (k : Nat) : events (List.replicate k Action.hub) = [] := by
  induction k with
  | zero => rfl
  | succ k ih => simpa [List.replicate_succ, events] using ih

theorem events_replicate_chat (k : Nat) : events (List.replicate k Action.chat) = [] := by
  induction k with
  | zero => rfl
  | succ k ih => simpa [List.replicate_succ, events] using ih

theorem finish_ok_none (clients : List client) : ∀ (n : Nat) (receive r1 : client → Chan)
    (b : Broadcast) (x : Option Broadcast),
    Broadcast.finish clients n receive b = .ok (r1, x) → x = none := by
  intro n
  induction n with
  | zero => intro receive r1 b x h; cases h
  | succ n ih =>
    intro receive r1 b x h
    simp only [Broadcast.finish] at h
    split at h
    · cases h; rfl
    · exact ih _ _ _ _ h
    · cases h
    · cases h

theorem finish_exec_hub : ∀ (n : Nat) (s : State) (b : Broadcast) (r1 : client → Chan),
    s.hub = HubPc.broadcast b → Broadcast.finish s.clients n s.receive b = .ok (r1, none) →
    ∃ k, exec s (List.replicate k Action.hub) =
      .ok { clients := s.clients, receive := r1, hub := HubPc.select, chat := s.chat,
            accesses := s.accesses } := by
  intro n
  induction n with
  | zero => intro s b r1 _ h; cases h
  | succ n ih =>
    intro s b r1 hb h
    simp only [Broadcast.finish] at h
    split at h
    · rename_i r0 hs
      cases h
      refine ⟨1, ?_⟩
      simp only [List.replicate, exec, step, hubStep, hb, hs, HubPc.after]
    · rename_i r0 b1 hs
      obtain ⟨k, hk⟩ := ih
        { clients := s.clients, receive := r0, hub := HubPc.broadcast b1, chat := s.chat,
          accesses := s.accesses } b1 r1 rfl h
      refine ⟨k + 1, ?_⟩
      simp only [List.replicate, exec, step, hubStep, hb, hs, HubPc.after]
      exact hk
    · cases h
    · cases h

theorem finish_exec_chat : ∀ (n : Nat) (s : State) (b : Broadcast) (r1 : client → Chan),
    s.chat = ChatPc.broadcast b → Broadcast.finish s.clients n s.receive b = .ok (r1, none) →
    ∃ k, exec s (List.replicate k Action.chat) =
      .ok { clients := s.clients, receive := r1, hub := s.hub, chat := ChatPc.receive,
            accesses := s.accesses } := by
  intro n
  induction n with
  | zero => intro s b r1 _ h; cases h
  | succ n ih =>
    intro s b r1 hb h
    simp only [Broadcast.finish] at h
    split at h
    · rename_i r0 hs
      cases h
      refine ⟨1, ?_⟩
      simp only [List.replicate, exec, step, startChatProcessor, hb, hs, ChatPc.after]
    · rename_i r0 b1 hs
      obtain ⟨k, hk⟩ := ih
        { clients := s.clients, receive := r0, hub := s.hub, chat := ChatPc.broadcast b1,
          accesses := s.accesses } b1 r1 rfl h
      refine ⟨k + 1, ?_⟩
      simp only [List.replicate, exec, step, startChatProcessor, hb, hs, ChatPc.after]
      exact hk
    · cases h
    · cases h

theorem hubFinish_exec (s s1 : State) (h : hubFinish s = .ok s1) :
    ∃ k, exec s (List.replicate k Action.hub) = .ok s1 := by
  unfold hubFinish at h
  split at h
  · cases h
    exact ⟨0, rfl⟩
  · refine ⟨1, ?_⟩
    simp only [List.replicate, exec, step, h]
  · rename_i b hb
    split at h
    · rename_i r1 x hf
      cases h
      have hx := finish_ok_none _ _ _ _ _ _ hf
      subst hx
      exact finish_exec_hub _ s b r1 hb hf
    · cases h
    · cases h

theorem run_exec (s s1 : State) (e : Event) (h : run s e = .ok s1) :
    ∃ k, exec s (Action.recv e :: List.replicate k Action.hub) = .ok s1 := by
  unfold run at h
  split at h
  · rename_i s0 hr
    obtain ⟨k, hk⟩ := hubFinish_exec s0 s1 h
    refine ⟨k, ?_⟩
    simp only [exec, step, hr]
    exact hk
  · cases h
  · cases h

theorem chatLoop_exec (s s1 : State) (h : chatLoop s = .ok s1) :
    ∃ k, exec s (List.replicate k Action.chat) = .ok s1 := by
  unfold chatLoop at h
  split at h
  · rename_i b hb
    split at h
    · rename_i r1 x hf
      cases h
      have hx := finish_ok_none _ _ _ _ _ _ hf
      subst hx
      exact finish_exec_chat _ s b r1 hb hf
    · cases h
    · cases h
  · cases h
    exact ⟨0, rfl⟩

theorem chatFinish_exec (s s1 : State) (h : chatFinish s = .ok s1) :
    ∃ k, exec s (List.replicate k Action.chat) = .ok s1 := by
  unfold chatFinish at h
  split at h
  · split at h
    · rename_i s0 hs
      obtain ⟨k, hk⟩ := chatLoop_exec s0 s1 h
      refine ⟨k + 1, ?_⟩
      simp only [List.replicate, exec, step, hs]
      exact hk
    · cases h
    · cases h
  · exact chatLoop_exec s s1 h

theorem runAll_exec : ∀ (evs : List Event) (s s1 : State), runAll s evs = .ok s1 →
    ∃ sched, exec s sched = .ok s1 ∧ events sched = evs := by
  intro evs
  induction evs with
  | nil =>
    intro s s1 h
    cases h
    exact ⟨[], rfl, rfl⟩
  | cons e rest ih =>
    intro s s3 h
    simp only [runAll] at h
    split at h
    · rename_i s1 hr
      split at h
      · rename_i s2 hc
        obtain ⟨k1, h1⟩ := run_exec s s1 e hr
        obtain ⟨k2, h2⟩ := chatFinish_exec s1 s2 hc
        obtain ⟨sched, h3, hev⟩ := ih s2 s3 h
        refine ⟨(Action.recv e :: List.replicate k1 Action.hub) ++
          (List.replicate k2 Action.chat ++ sched), ?_, ?_⟩
        · exact exec_append _ _ _ _ _ h1 (exec_append _ _ _ _ _ h2 h3)
        · rw [events_append, events_append, events_replicate_chat, hev]
          simp [events, events_replicate_hub]
      · cases h
      · cases h
    · cases h
    · cases h

/-! ## Decimal strings and sequences of calls of `generateUniqueUser` -/

theorem digitChar_val : ∀ k, k < 10 → (Nat.digitChar k).toNat - 48 = k := by
  decide

theorem digitChar_ne_minus : ∀ k, k < 10 → Nat.digitChar k ≠ Char.ofNat 45 := by
  decide

theorem toDigitsCore_decode : ∀ (fuel n : Nat) (ds : List Char), n < fuel →
    (Nat.toDigitsCore 10 fuel n ds).foldl (fun acc ch => 10 * acc + (ch.toNat - 48)) 0
      = ds.foldl (fun acc ch => 10 * acc + (ch.toNat - 48)) n := by
  intro fuel
  induction fuel with
  | zero => intro n ds h; omega
  | succ fuel ih =>
    intro n ds h
    have hd : (Nat.digitChar (n % 10)).toNat - 48 = n % 10 :=
      digitChar_val _ (Nat.mod_lt _ (by decide))
    by_cases h0 : n / 10 = 0
    · simp only [Nat.toDigitsCore, h0, if_true, List.foldl_cons, hd]
      congr 1
      omega
    · simp only [Nat.toDigitsCore, h0, if_false]
      rw [ih (n / 10) _ (by omega)]
      simp only [List.foldl_cons, hd]
      congr 1
      omega

theorem toDigitsCore_no_minus : ∀ (fuel n : Nat) (ds : List Char),
    Char.ofNat 45 ∉ ds → Char.ofNat 45 ∉ Nat.toDigitsCore 10 fuel n ds := by
  intro fuel
  induction fuel with
  | zero => intro n ds h; simpa [Nat.toDigitsCore] using h
  | succ fuel ih =>
    intro n ds h
    have hd : Char.ofNat 45 ∉ Nat.digitChar (n % 10) :: ds := by
      intro hm
      rcases List.mem_cons.mp hm with h1 | h1
      · exact digitChar_ne_minus _ (Nat.mod_lt _ (by decide)) h1.symm
      · exact h h1
    by_cases h0 : n / 10 = 0
    · simp only [Nat.toDigitsCore, h0, if_true]
      exact hd
    · simp only [Nat.toDigitsCore, h0, if_false]
      exact ih _ _ hd

theorem decodeDigits_repr (n : Nat) : decodeDigits (Nat.repr n).data = n := by
  show (Nat.toDigitsCore 10 (n + 1) n []).foldl _ 0 = n
  rw [toDigitsCore_decode (n + 1) n [] (Nat.lt_succ_self n)]
  rfl

theorem repr_no_minus (n : Nat) : Char.ofNat 45 ∉ (Nat.repr n).data :=
  toDigitsCore_no_minus (n + 1) n [] (List.not_mem_nil _)

theorem Itoa_injective : Function.Injective Itoa := by
  intro a b hab
  have key : ∀ m k : Nat, Nat.repr m ≠ "-" ++ Nat.repr (k + 1) := by
    intro m k h
    apply repr_no_minus m
    rw [h]
    show Char.ofNat 45 ∈ Char.ofNat 45 :: (Nat.repr (k + 1)).data
    exact List.mem_cons_self _ _
  cases a with
  | ofNat m =>
    cases b with
    | ofNat k =>
      have h1 : Nat.repr m = Nat.repr k := hab
      have h2 := congrArg (fun s => decodeDigits s.data) h1
      simp only [decodeDigits_repr] at h2
      rw [h2]
    | negSucc k => exact absurd hab (key m k)
  | negSucc m =>
    cases b with
    | ofNat k => exact absurd hab.symm (key k m)
    | negSucc k =>
      have h1 : "-" ++ Nat.repr (m + 1) = "-" ++ Nat.repr (k + 1) := hab
      have h2 : (Nat.repr (m + 1)).data = (Nat.repr (k + 1)).data := by
        have h3 := congrArg String.data h1
        simpa using h3
      have h4 := congrArg decodeDigits h2
      simp only [decodeDigits_repr] at h4
      have h5 : m = k := by omega
      rw [h5]

theorem wrapInt_add (a b : Int) : wrapInt (wrapInt a + b) = wrapInt (a + b) := by
  unfold wrapInt
  omega

theorem callSeq_eq_map : ∀ (n : Nat) (c : Int),
    callSeq n c = (List.range n).map (fun (i : Nat) => "User" ++ Itoa (wrapInt (c + ((i : Int) + 1)))) := by
  intro n
  induction n with
  | zero => intro c; rfl
  | succ n ih =>
    intro c
    rw [List.range_succ_eq_map, List.map_cons, List.map_map]
    simp only [callSeq, generateUniqueUser, ih]
    congr 1
    apply List.map_congr_left
    intro i _
    simp only [Function.comp, Nat.succ_eq_add_one, Nat.cast_add, Nat.cast_one]
    rw [wrapInt_add]
    congr 3
    omega

theorem callSeq_get (n : Nat) (c : Int) (i : Nat) (h : i < n) :
    (callSeq n c)[i]? = some ("User" ++ Itoa (wrapInt (c + ((i : Int) + 1)))) := by
  rw [callSeq_eq_map, List.getElem?_map, List.getElem?_range h]
  rfl

theorem user_append_injective (a b : String) (h : "User" ++ a = "User" ++ b) : a = b := by
  have h1 := congrArg String.data h
  simp only [String.data_append, List.append_cancel_left_eq] at h1
  exact String.ext h1

/-! ## The receive pump -/

theorem read_script (c : client) (e : String) (rest : List (Except String Bytes)) :
    ∀ frames : List Bytes,
      client.read c (frames.map Except.ok ++ Except.error e :: rest)
        = (frames.map Event.forward, true) := by
  intro frames
  induction frames with
  | nil => rfl
  | cons m more ih =>
    show (Event.forward m ::
        (client.read c (more.map Except.ok ++ Except.error e :: rest)).1,
        (client.read c (more.map Except.ok ++ Except.error e :: rest)).2) = _
    rw [ih]
    rfl

theorem disciplinedFrom_read (c : client) (tail : List Event) (joined left : List client) :
    ∀ socket : List (Except String Bytes),
      disciplinedFrom joined left ((client.read c socket).1 ++ tail)
        = disciplinedFrom joined left tail := by
  intro socket
  induction socket with
  | nil => rfl
  | cons r rest ih =>
    cases r with
    | error e => rfl
    | ok m =>
      show disciplinedFrom joined left
        (Event.forward m :: ((client.read c rest).1 ++ tail)) = _
      rw [disciplinedFrom, ih]

theorem serveHTTP_events_disciplined (socket : List (Except String Bytes)) (p : Process)
    (sess : Session) (h : ServeHTTP (.ok socket) p = some sess) : Disciplined sess.events := by
  simp only [ServeHTTP, Option.some.injEq] at h
  subst h
  show disciplinedFrom [] [] (Event.join _ :: ((client.read _ socket).1 ++ _)) = true
  rw [disciplinedFrom, disciplinedFrom_read]
  split <;> simp [disciplinedFrom]

/-! ## The claims -/

set_option maxRecDepth 1000000 in
/-- C1, the claim fails on a full queue. From the empty room, `bob` joins,
`alice` joins and 255 messages are forwarded while the send pump of `bob`
takes nothing; then `Join(carol)` arrives. After each of the two turns the
record shows its status, the view of the queue of `bob`, and the client `run`
holds at a send. The queue of `bob` is full after the first
turn; the turn of `run` for `Join(carol)` does not come to its end, `run`
waits in the send to `bob`, and nothing has been appended to the queue of
`bob`, a registered participant other than `carol`. -/
theorem join_waits_on_full_queue :
    trace (fun s => (s.view bob, s.hub.atSend)) newRoom
        [fun s => runAll s fullRoomEvents, fun s => run s (Event.join carol)]
      = [(Status.ok,
            some ({ registered := true, closed := false, waiting := 256, appended := 256 },
              none)),
         (Status.blocked,
            some ({ registered := true, closed := false, waiting := 256, appended := 256 },
              some bob))] := by
  decide!

/-- C1 as amended, join broadcast exclusion: in every well-formed hub state
in which `run` waits in `select` and every registered participant other than
`p` has room in its queue, the turn of `run` for `Join(p)`, taken alone,
comes to its end,
registers `p`, appends exactly one envelope to the queue of every registered
participant other than `p`, an envelope that reads back with type
`userJoined` and user `p.user`, and leaves the queue of `p` and of everybody
else as it was. -/
theorem join_broadcast_exclusion (s : State) (p : client) (h : WellFormed s)
    (hsel : s.hub = HubPc.select)
    (hroom : ∀ q ∈ s.clients, q ≠ p → (s.receive q).buf.length < (s.receive q).cap) :
    ∃ s1 b, run s (Event.join p) = .ok s1 ∧
      jsonMarshal
          { Type_ := utf8 "userJoined"
            Message := utf8 (p.user ++ " joined the chat.")
            User := utf8 p.user } = .ok b ∧
      jsonUnmarshal b = some
          { Type_ := utf8 "userJoined"
            Message := utf8 (p.user ++ " joined the chat.")
            User := utf8 p.user } ∧
      s1.hub = HubPc.select ∧
      (∀ q, q ∈ s1.clients ↔ q ∈ s.clients ∨ q = p) ∧
      (∀ q ∈ s1.clients, q ≠ p →
        s1.receive q = { cap := (s.receive q).cap, buf := (s.receive q).buf ++ [b],
                         sent := (s.receive q).sent ++ [b], closed := (s.receive q).closed }) ∧
      s1.receive p = s.receive p ∧
      (∀ q, q ∉ s1.clients → s1.receive q = s.receive q) := by
  obtain ⟨hnd, hopen⟩ := h
  obtain ⟨s1, b, hb, hrun, hcl, hhub, _, hval⟩ := run_join_ok s p hsel hnd
    (fun q hq hqp => ⟨hopen q hq, hroom q hq hqp⟩)
  refine ⟨s1, b, hrun, hb, jsonUnmarshal_text _ _ _ b hb, hhub, ?_, ?_, ?_, ?_⟩
  · intro q
    rw [hcl]
    exact mem_mapSet _ _ _
  · intro q hq hqp
    rw [hcl] at hq
    rw [hval q, if_pos ⟨hq, hqp⟩]
  · rw [hval p, if_neg (fun h => h.2 rfl)]
  · intro q hq
    rw [hcl] at hq
    rw [hval q, if_neg (fun h => hq h.1)]

/-- C1 as amended, a concrete instance: `carol` joins the room of `alice` and
`bob`, whose queues are empty. -/
theorem join_broadcast_exclusion_witness :
    (WellFormed roomAliceBob ∧ roomAliceBob.hub = HubPc.select ∧
      ∀ q ∈ roomAliceBob.clients, q ≠ carol →
        (roomAliceBob.receive q).buf.length < (roomAliceBob.receive q).cap) ∧
    ∃ s1 b, run roomAliceBob (Event.join carol) = .ok s1 ∧
      jsonMarshal
          { Type_ := utf8 "userJoined"
            Message := utf8 (carol.user ++ " joined the chat.")
            User := utf8 carol.user } = .ok b ∧
      jsonUnmarshal b = some
          { Type_ := utf8 "userJoined"
            Message := utf8 (carol.user ++ " joined the chat.")
            User := utf8 carol.user } ∧
      s1.hub = HubPc.select ∧
      (∀ q, q ∈ s1.clients ↔ q ∈ roomAliceBob.clients ∨ q = carol) ∧
      (∀ q ∈ s1.clients, q ≠ carol →
        s1.receive q =
          { cap := (roomAliceBob.receive q).cap, buf := (roomAliceBob.receive q).buf ++ [b],
            sent := (roomAliceBob.receive q).sent ++ [b],
            closed := (roomAliceBob.receive q).closed }) ∧
      s1.receive carol = roomAliceBob.receive carol ∧
      (∀ q, q ∉ s1.clients → s1.receive q = roomAliceBob.receive q) :=
  have h : WellFormed roomAliceBob := by
    unfold WellFormed
    decide
  have hroom : ∀ q ∈ roomAliceBob.clients, q ≠ carol →
      (roomAliceBob.receive q).buf.length < (roomAliceBob.receive q).cap := by
    decide
  ⟨⟨h, rfl, hroom⟩, join_broadcast_exclusion roomAliceBob carol h rfl hroom⟩

set_option maxRecDepth 1000000 in
/-- C2, the claim fails on a full queue. From the empty room, `bob` joins,
`alice` joins and 255 messages are forwarded while the send pump of `bob`
takes nothing; then `Leave(alice)` arrives. After each of the two turns the
record shows its status, the views of the queues of `alice` and of `bob`, and
the client `run` holds at a send. The turn of `run` for
`Leave(alice)` removes `alice` and closes her queue but does not come to its
end; `run` waits in the send to `bob`, who remains registered and has had
nothing appended to his queue. -/
theorem leave_waits_on_full_queue :
    trace (fun s => (s.view alice, s.view bob, s.hub.atSend)) newRoom
        [fun s => runAll s fullRoomEvents, fun s => run s (Event.leave alice)]
      = [(Status.ok,
            some ({ registered := true, closed := false, waiting := 255, appended := 255 },
              { registered := true, closed := false, waiting := 256, appended := 256 },
              none)),
         (Status.blocked,
            some ({ registered := false, closed := true, waiting := 255, appended := 255 },
              { registered := true, closed := false, waiting := 256, appended := 256 },
              some bob))] := by
  decide!

/-- C2 as amended, leave broadcast exclusion: in every well-formed hub state
in which `run` waits in `select` and every other registered participant has
room in its queue, and for every registered `p`, the turn of `run` for
`Leave(p)`, taken alone, comes to its end, removes `p` from the participant
set, closes the
queue of `p` without adding to it, appends exactly one envelope to the queue
of every participant that remains, an envelope that reads back with type
`userLeft` and user `p.user`, and leaves all other queues as they were. -/
theorem leave_broadcast_exclusion (s : State) (p : client) (h : WellFormed s)
    (hsel : s.hub = HubPc.select) (hp : p ∈ s.clients)
    (hroom : ∀ q ∈ s.clients, q ≠ p → (s.receive q).buf.length < (s.receive q).cap) :
    ∃ s1 b, run s (Event.leave p) = .ok s1 ∧
      jsonMarshal
          { Type_ := utf8 "userLeft"
            Message := utf8 (p.user ++ " left the chat.")
            User := utf8 p.user } = .ok b ∧
      jsonUnmarshal b = some
          { Type_ := utf8 "userLeft"
            Message := utf8 (p.user ++ " left the chat.")
            User := utf8 p.user } ∧
      s1.hub = HubPc.select ∧
      (∀ q, q ∈ s1.clients ↔ q ∈ s.clients ∧ q ≠ p) ∧
      s1.receive p = { cap := (s.receive p).cap, buf := (s.receive p).buf,
                       sent := (s.receive p).sent, closed := true } ∧
      (∀ q ∈ s1.clients,
        s1.receive q = { cap := (s.receive q).cap, buf := (s.receive q).buf ++ [b],
                         sent := (s.receive q).sent ++ [b], closed := (s.receive q).closed }) ∧
      (∀ q, q ∉ s.clients → s1.receive q = s.receive q) := by
  obtain ⟨hnd, hopen⟩ := h
  obtain ⟨s1, b, hb, hrun, hcl, hhub, _, hval⟩ := run_leave_ok s p hsel hnd (hopen p hp)
    (fun q hq hqp => ⟨hopen q hq, hroom q hq hqp⟩)
  refine ⟨s1, b, hrun, hb, jsonUnmarshal_text _ _ _ b hb, hhub, ?_, ?_, ?_, ?_⟩
  · intro q
    rw [hcl]
    exact mem_mapDelete _ _ _
  · rw [hval p, if_pos rfl]
  · intro q hq
    rw [hcl] at hq
    have hq1 := (mem_mapDelete _ _ _).mp hq
    rw [hval q, if_neg hq1.2, if_pos hq1.1]
  · intro q hq
    have hqp : q ≠ p := fun h => hq (h ▸ hp)
    rw [hval q, if_neg hqp, if_neg hq]

/-- C2 as amended, a concrete instance: `bob` leaves the room of `alice` and
`bob`, whose queues are empty. -/
theorem leave_broadcast_exclusion_witness :
    (WellFormed roomAliceBob ∧ roomAliceBob.hub = HubPc.select ∧ bob ∈ roomAliceBob.clients ∧
      ∀ q ∈ roomAliceBob.clients, q ≠ bob →
        (roomAliceBob.receive q).buf.length < (roomAliceBob.receive q).cap) ∧
    ∃ s1 b, run roomAliceBob (Event.leave bob) = .ok s1 ∧
      jsonMarshal
          { Type_ := utf8 "userLeft"
            Message := utf8 (bob.user ++ " left the chat.")
            User := utf8 bob.user } = .ok b ∧
      jsonUnmarshal b = some
          { Type_ := utf8 "userLeft"
            Message := utf8 (bob.user ++ " left the chat.")
            User := utf8 bob.user } ∧
      s1.hub = HubPc.select ∧
      (∀ q, q ∈ s1.clients ↔ q ∈ roomAliceBob.clients ∧ q ≠ bob) ∧
      s1.receive bob = { cap := (roomAliceBob.receive bob).cap,
                         buf := (roomAliceBob.receive bob).buf,
                         sent := (roomAliceBob.receive bob).sent, closed := true } ∧
      (∀ q ∈ s1.clients,
        s1.receive q =
          { cap := (roomAliceBob.receive q).cap, buf := (roomAliceBob.receive q).buf ++ [b],
            sent := (roomAliceBob.receive q).sent ++ [b],
            closed := (roomAliceBob.receive q).closed }) ∧
      (∀ q, q ∉ roomAliceBob.clients → s1.receive q = roomAliceBob.receive q) :=
  have h : WellFormed roomAliceBob := by
    unfold WellFormed
    decide
  have hp : bob ∈ roomAliceBob.clients := by decide
  have hroom : ∀ q ∈ roomAliceBob.clients, q ≠ bob →
      (roomAliceBob.receive q).buf.length < (roomAliceBob.receive q).cap := by
    decide
  ⟨⟨h, rfl, hp, hroom⟩, leave_broadcast_exclusion roomAliceBob bob h rfl hp hroom⟩

set_option maxRecDepth 1000000 in
/-- C3, the claim fails in two ways. A frame that is not well-formed UTF-8:
after `alice` and `bob` have joined, the raw message `a 0xff b 0xc3` is
forwarded and broadcast; the one envelope appended to the queue of `bob`
reads back with a message in which each of the bytes `0xff` and `0xc3` has
become U+FFFD, not the raw text. A full queue: after `bob` and `alice` have
joined and 255 messages were forwarded while the send pump of `bob` took
nothing, one more message is forwarded; the record shows for each turn its
status, the view of the queue of `bob`, and the client the chat processor
holds at a send: the chat processor has to wait in
the send to `bob` and nothing is appended to his queue. -/
theorem chat_fanout_counterexample :
    (∃ s b, runAll newRoom [Event.join alice, Event.join bob, Event.forward badFrame] = .ok s ∧
      (s.receive bob).sent = [b] ∧
      jsonUnmarshal b = some
        { Type_ := utf8 "chatMessage"
          Message := [97, 239, 191, 189, 98, 239, 191, 189]
          User := utf8 "SenderUsername" } ∧
      [97, 239, 191, 189, 98, 239, 191, 189] ≠ badFrame) ∧
    trace (fun s => (s.view bob, s.chat.atSend)) newRoom
        [fun s => runAll s fullRoomEvents, fun s => run s (Event.forward (utf8 "hi")),
         chatFinish]
      = [(Status.ok,
            some ({ registered := true, closed := false, waiting := 256, appended := 256 },
              none)),
         (Status.ok,
            some ({ registered := true, closed := false, waiting := 256, appended := 256 },
              none)),
         (Status.blocked,
            some ({ registered := true, closed := false, waiting := 256, appended := 256 },
              some bob))] := by
  refine ⟨⟨_, _, rfl, rfl, by decide, by decide⟩, ?_⟩
  decide!

/-- C3 as amended, chat fan-out completeness: in every well-formed hub state
in which `run` waits in `select`, the chat processor waits for a message and
every registered participant has room in its queue, with a registered sender
`S` (so `N ≥ 1` participants are registered): the turn of `run` for
`Forward(M)` hands the envelope to the chat processor, and the chat
processor's broadcast, when it runs before `run` handles a further event,
leaves the participant set as it is and appends to the queue of each of the
`N - 1` other participants exactly one envelope, which reads back with type
`chatMessage` and with the message `M` in which every byte that is not part
of a well-formed UTF-8 sequence is replaced by U+FFFD; that message is `M`
itself whenever `M` is well-formed UTF-8. -/
theorem chat_fanout_completeness (s : State) (M : Bytes) (S : client) (h : WellFormed s)
    (hsel : s.hub = HubPc.select) (hchat : s.chat = ChatPc.receive)
    (hroom : ∀ q ∈ s.clients, (s.receive q).buf.length < (s.receive q).cap)
    (hS : S ∈ s.clients) :
    ∃ s1 s2 b, run s (Event.forward M) = .ok s1 ∧ chatFinish s1 = .ok s2 ∧
      jsonMarshal
          { Type_ := utf8 "chatMessage", Message := M, User := utf8 "SenderUsername" } = .ok b ∧
      jsonUnmarshal b = some
          { Type_ := utf8 "chatMessage"
            Message := replaceInvalid 0 M
            User := utf8 "SenderUsername" } ∧
      (∀ t : String, M = utf8 t → replaceInvalid 0 M = M) ∧
      s2.clients = s.clients ∧
      (s.clients.filter (fun q => q ≠ S)).length = s.clients.length - 1 ∧
      (∀ q ∈ s.clients, q ≠ S →
        s2.receive q = { cap := (s.receive q).cap, buf := (s.receive q).buf ++ [b],
                         sent := (s.receive q).sent ++ [b], closed := (s.receive q).closed }) := by
  obtain ⟨hnd, hopen⟩ := h
  have hrun := run_forward_ok s M hsel hchat
  obtain ⟨s2, b, hb, hfin, hcl, _, _, _, hval⟩ := chatFinish_got_ok
    { clients := s.clients, receive := s.receive, hub := HubPc.select,
      chat := ChatPc.got
        { Type_ := utf8 "chatMessage", Message := M, User := utf8 "SenderUsername" },
      accesses := s.accesses }
    { Type_ := utf8 "chatMessage", Message := M, User := utf8 "SenderUsername" } rfl hnd
    (fun q hq => ⟨hopen q hq, hroom q hq⟩)
  refine ⟨_, s2, b, hrun, hfin, hb, ?_, ?_, hcl, ?_, ?_⟩
  · rw [jsonUnmarshal_jsonMarshal _ b hb]
    simp only [replaceInvalid_utf8]
  · intro t ht
    rw [ht, replaceInvalid_utf8]
  · have h1 : s.clients.filter (fun q => q ≠ S) = s.clients.erase S := by
      rw [List.Nodup.erase_eq_filter hnd]
      congr 1
      funext q
      simp [bne, beq_eq_decide]
    rw [h1, List.length_erase_of_mem hS]
  · intro q hq _
    rw [hval q]
    exact if_pos hq

/-- C3 as amended, a concrete instance: the message `hi` from `alice` in the
room of `alice` and `bob`, whose queues are empty. -/
theorem chat_fanout_completeness_witness :
    (WellFormed roomAliceBob ∧ roomAliceBob.hub = HubPc.select ∧
      roomAliceBob.chat = ChatPc.receive ∧
      (∀ q ∈ roomAliceBob.clients,
        (roomAliceBob.receive q).buf.length < (roomAliceBob.receive q).cap) ∧
      alice ∈ roomAliceBob.clients ∧ utf8 "hi" = utf8 "hi") ∧
    ∃ s1 s2 b, run roomAliceBob (Event.forward (utf8 "hi")) = .ok s1 ∧
      chatFinish s1 = .ok s2 ∧
      jsonMarshal
          { Type_ := utf8 "chatMessage", Message := utf8 "hi", User := utf8 "SenderUsername" }
        = .ok b ∧
      jsonUnmarshal b = some
          { Type_ := utf8 "chatMessage"
            Message := replaceInvalid 0 (utf8 "hi")
            User := utf8 "SenderUsername" } ∧
      replaceInvalid 0 (utf8 "hi") = utf8 "hi" ∧
      s2.clients = roomAliceBob.clients ∧
      (roomAliceBob.clients.filter (fun q => q ≠ alice)).length
        = roomAliceBob.clients.length - 1 ∧
      (∀ q ∈ roomAliceBob.clients, q ≠ alice →
        s2.receive q =
          { cap := (roomAliceBob.receive q).cap, buf := (roomAliceBob.receive q).buf ++ [b],
            sent := (roomAliceBob.receive q).sent ++ [b],
            closed := (roomAliceBob.receive q).closed }) :=
  have h : WellFormed roomAliceBob := by
    unfold WellFormed
    decide
  have hroom : ∀ q ∈ roomAliceBob.clients,
      (roomAliceBob.receive q).buf.length < (roomAliceBob.receive q).cap := by
    decide
  have hS : alice ∈ roomAliceBob.clients := by decide
  ⟨⟨h, rfl, rfl, hroom, hS, rfl⟩,
    match chat_fanout_completeness roomAliceBob (utf8 "hi") alice h rfl rfl hroom hS with
    | ⟨s1, s2, b, h1, h2, h3, h4, h5, h6, h7, h8⟩ =>
      ⟨s1, s2, b, h1, h2, h3, h4, h5 "hi" rfl, h6, h7, h8⟩⟩

/-- C4, self-delivery of a chat message: after `alice`, `bob` and `carol`
have joined, a message `hi` sent by `alice` is handled without panic and its
`chatMessage` envelope is appended to the queue of `alice` herself, after
the two `userJoined` envelopes she received for `bob` and `carol`. -/
theorem chat_message_reaches_sender :
    ∃ s, runAll newRoom
        [Event.join alice, Event.join bob, Event.join carol, Event.forward (utf8 "hi")]
          = .ok s ∧
      (s.receive alice).sent =
        [utf8 "\x7b\"type\":\"userJoined\",\"message\":\"User2 joined the chat.\",\"user\":\"User2\"\x7d",
         utf8 "\x7b\"type\":\"userJoined\",\"message\":\"User3 joined the chat.\",\"user\":\"User3\"\x7d",
         utf8 "\x7b\"type\":\"chatMessage\",\"message\":\"hi\",\"user\":\"SenderUsername\"\x7d"] :=
  ⟨_, rfl, by decide⟩

/-- C9, access to the participant set outside the hub loop: when `alice` has
joined and a message is forwarded, the accesses to `room.clients` are a write
and a read by the goroutine of `room.run`, and then a read by the goroutine
that `startChatProcessor` started. -/
theorem clients_read_by_chat_processor :
    ∃ s, runAll newRoom [Event.join alice, Event.forward (utf8 "hi")] = .ok s ∧
      s.accesses =
        [(Goroutine.hubLoop, MapAccess.write), (Goroutine.hubLoop, MapAccess.read),
         (Goroutine.chatProcessor, MapAccess.read)] :=
  ⟨_, rfl, by decide⟩

/-- C5, the claim fails when a participant is joined again after its leave:
after `Join(alice), Leave(alice), Join(alice)`, each handled to its end by
`run`, `alice` is in the participant set although a `Leave(alice)` has been
processed. -/
theorem membership_rejoin :
    ∃ s, exec newRoom
        [Action.recv (Event.join alice), Action.hub, Action.hub,
         Action.recv (Event.leave alice), Action.hub,
         Action.recv (Event.join alice), Action.hub, Action.hub] = .ok s ∧
      s.hub = HubPc.select ∧ alice ∈ s.clients ∧
      ¬ (Event.join alice ∈ [Event.join alice, Event.leave alice, Event.join alice] ∧
          Event.leave alice ∉ [Event.join alice, Event.leave alice, Event.join alice]) :=
  ⟨_, rfl, rfl, by decide, by decide⟩

/-- C5 as amended, membership invariant: after every interleaving of `run`,
the chat processor and the send pumps that starts from the empty room of
`newRoom` and has not stopped, the participant set holds exactly the
participants whose latest `Join` or `Leave` event received by `run` is a
`Join`; this is the set of participants with a processed `Join` and no
processed `Leave` exactly when no participant whose latest event is a `Join`
has a processed `Leave`. Every step other than the receipt of a `Join` or a
`Leave`, the receipt of a `Forward` among them, leaves the participant set
unchanged. -/
theorem membership_invariant (sched : List Action) (s : State)
    (h : exec newRoom sched = .ok s) :
    (∀ p, p ∈ s.clients ↔ latestJoined p (events sched)) ∧
    ((∀ p, p ∈ s.clients ↔
        Event.join p ∈ events sched ∧ Event.leave p ∉ events sched) ↔
      ∀ p, latestJoined p (events sched) → Event.leave p ∉ events sched) ∧
    ∀ (t t1 : State) (a : Action),
      (∀ c, a ≠ Action.recv (Event.join c) ∧ a ≠ Action.recv (Event.leave c)) →
      step t a = .ok t1 → t1.clients = t.clients := by
  have hmem : ∀ p, p ∈ s.clients ↔ latestJoined p (events sched) := by
    intro p
    rw [exec_clients sched newRoom s h, mem_foldl_applyEvent]
    simp [newRoom]
  refine ⟨hmem, ?_, fun t t1 a ha hs => step_keeps t t1 a ha hs⟩
  constructor
  · intro hall p hp
    exact ((hall p).mp ((hmem p).mpr hp)).2
  · intro hno p
    rw [hmem p]
    constructor
    · intro hp
      exact ⟨latestJoined_mem p _ hp, hno p hp⟩
    · rintro ⟨hj, hl⟩
      exact latestJoined_of_join p _ hj hl

/-- C5 as amended, a concrete instance: `alice` and `bob` join, a message is
forwarded, `carol` joins while the chat processor is still broadcasting, the
send pump of `alice` takes a message, `alice` leaves; and the receipt of a
`Forward` in the room of `alice` and `bob`. -/
theorem membership_invariant_witness :
    ∃ s s1,
      exec newRoom
        [Action.recv (Event.join alice), Action.hub, Action.hub,
         Action.recv (Event.join bob), Action.hub, Action.hub, Action.hub, Action.hub,
         Action.recv (Event.forward (utf8 "hi")), Action.hub, Action.chat, Action.chat,
         Action.chat, Action.recv (Event.join carol), Action.chat, Action.hub, Action.chat,
         Action.hub, Action.chat, Action.pump alice, Action.hub, Action.hub, Action.hub,
         Action.hub,
         Action.recv (Event.leave alice), Action.hub, Action.hub, Action.hub, Action.hub,
         Action.hub] = .ok s ∧
      step roomAliceBob (Action.recv (Event.forward (utf8 "hi"))) = .ok s1 ∧
      (∀ p, p ∈ s.clients ↔
        latestJoined p
          [Event.join alice, Event.join bob, Event.forward (utf8 "hi"), Event.join carol,
           Event.leave alice]) ∧
      ((∀ p, p ∈ s.clients ↔
          Event.join p ∈
            [Event.join alice, Event.join bob, Event.forward (utf8 "hi"), Event.join carol,
           Event.leave alice] ∧
          Event.leave p ∉
            [Event.join alice, Event.join bob, Event.forward (utf8 "hi"), Event.join carol,
           Event.leave alice]) ↔
        ∀ p, latestJoined p
            [Event.join alice, Event.join bob, Event.forward (utf8 "hi"), Event.join carol,
           Event.leave alice] →
          Event.leave p ∉
            [Event.join alice, Event.join bob, Event.forward (utf8 "hi"), Event.join carol,
           Event.leave alice]) ∧
      s1.clients = roomAliceBob.clients :=
  have h : exec newRoom
        [Action.recv (Event.join alice), Action.hub, Action.hub,
         Action.recv (Event.join bob), Action.hub, Action.hub, Action.hub, Action.hub,
         Action.recv (Event.forward (utf8 "hi")), Action.hub, Action.chat, Action.chat,
         Action.chat, Action.recv (Event.join carol), Action.chat, Action.hub, Action.chat,
         Action.hub, Action.chat, Action.pump alice, Action.hub, Action.hub, Action.hub,
         Action.hub,
         Action.recv (Event.leave alice), Action.hub, Action.hub, Action.hub, Action.hub,
         Action.hub] = .ok _ := rfl
  have h1 : step roomAliceBob (Action.recv (Event.forward (utf8 "hi"))) = .ok _ := rfl
  ⟨_, _, h, h1, (membership_invariant _ _ h).1, (membership_invariant _ _ h).2.1,
    (membership_invariant _ _ h).2.2 roomAliceBob _ _ (fun _ => ⟨by simp, by simp⟩) h1⟩

set_option maxRecDepth 1000000 in
/-- C10, a panic that is reachable on a disciplined sequence: `alice` joins
and sends 257 messages while her send pump takes nothing, then leaves. After
each turn the record shows its status, the view of the queue of `alice`, and
the client the chat processor holds at a send. The first 256 broadcasts fill the queue; `run`
hands over the 257th message; the chat processor has to wait in the send to
`alice`; `run`, free again, handles `Leave(alice)` and closes her queue; the
next step of the chat processor, its waiting send, panics with a send on a
closed channel. -/
theorem send_on_closed_queue_reachable :
    Disciplined
      (Event.join alice :: List.replicate 256 (Event.forward (utf8 "hi")) ++
        [Event.forward (utf8 "hi"), Event.leave alice]) ∧
    trace (fun s => (s.view alice, s.chat.atSend)) newRoom
        [fun s =>
          runAll s (Event.join alice :: List.replicate 256 (Event.forward (utf8 "hi"))),
         fun s => run s (Event.forward (utf8 "hi")),
         chatFinish,
         fun s => run s (Event.leave alice),
         fun s => step s Action.chat]
      = [(Status.ok,
            some ({ registered := true, closed := false, waiting := 256, appended := 256 },
              none)),
         (Status.ok,
            some ({ registered := true, closed := false, waiting := 256, appended := 256 },
              none)),
         (Status.blocked,
            some ({ registered := true, closed := false, waiting := 256, appended := 256 },
              some alice)),
         (Status.ok,
            some ({ registered := false, closed := true, waiting := 256, appended := 256 },
              some alice)),
         (Status.panic Panic.sendOnClosedChannel, none)] := by
  refine ⟨?_, ?_⟩
  · unfold Disciplined
    decide!
  · decide!

/-- C6, the claim fails at the call number `2^63`: starting from
`userIDCounter = 0` that call returns `User-9223372036854775808`, which is not
`User` followed by the decimal representation of `9223372036854775808`. -/
theorem generateUniqueUser_overflow :
    (callSeq 9223372036854775808 0)[9223372036854775808 - 1]?
        = some "User-9223372036854775808" ∧
      (callSeq 9223372036854775808 0)[9223372036854775808 - 1]?
        ≠ some ("User" ++ toString 9223372036854775808) := by
  have h := callSeq_get 9223372036854775808 0 (9223372036854775808 - 1) (by decide)
  have hv : "User" ++ Itoa (wrapInt (0 + (((9223372036854775808 - 1 : Nat) : Int) + 1)))
      = "User-9223372036854775808" := by decide
  rw [hv] at h
  refine ⟨h, ?_⟩
  rw [h]
  decide

/-- C6 as amended, identity format and uniqueness: starting from
`userIDCounter = 0`, in every sequence of `n` calls of `generateUniqueUser`
the call number `k` returns `User` followed by the decimal representation of
`k` as long as `k < 2^63`, and as long as `n ≤ 2^64` no two calls of the
sequence return the same string. -/
theorem generateUniqueUser_sequence (n : Nat) :
    (∀ k, 1 ≤ k → k ≤ n → k < 9223372036854775808 →
      (callSeq n 0)[k - 1]? = some ("User" ++ toString k)) ∧
    (n ≤ 18446744073709551616 → (callSeq n 0).Nodup) := by
  constructor
  · intro k h1 h2 h3
    rw [callSeq_get n 0 (k - 1) (by omega)]
    have hw : wrapInt (0 + (((k - 1 : Nat) : Int) + 1)) = (k : Int) := by
      unfold wrapInt
      omega
    rw [hw]
    rfl
  · intro hn
    rw [callSeq_eq_map]
    apply List.Nodup.map_on _ (List.nodup_range n)
    intro i hi j hj hij
    have hi1 := List.mem_range.mp hi
    have hj1 := List.mem_range.mp hj
    have h1 := Itoa_injective (user_append_injective _ _ hij)
    unfold wrapInt at h1
    omega

/-- C6 as amended, a concrete instance: the second of three calls. -/
theorem generateUniqueUser_sequence_witness :
    (1 ≤ 2 ∧ 2 ≤ 3 ∧ 2 < 9223372036854775808 ∧ 3 ≤ 18446744073709551616) ∧
    (callSeq 3 0)[2 - 1]? = some ("User" ++ toString 2) ∧ (callSeq 3 0).Nodup :=
  ⟨⟨by decide, by decide, by decide, by decide⟩,
    (generateUniqueUser_sequence 3).1 2 (by decide) (by decide) (by decide),
    (generateUniqueUser_sequence 3).2 (by decide)⟩

/-- C7, origin allow-list: `CheckOrigin` accepts a request exactly when the
value `Header.Get` finds for `Origin`, the first one stored under that key,
is the string `http://localhost:3000`; a request without the header, or with
another scheme, host, port, letter case or a trailing slash, is rejected. -/
theorem checkOrigin_allow_list (r : Request) :
    (CheckOrigin r = true ↔ r.Header.Get "Origin" = "http://localhost:3000") ∧
    (CheckOrigin r = true ↔
      ∃ more, List.lookup "Origin" r.Header = some ("http://localhost:3000" :: more)) ∧
    CheckOrigin { Header := [] } = false ∧
    CheckOrigin { Header := [("Origin", [])] } = false ∧
    CheckOrigin { Header := [("Origin", ["https://localhost:3000"])] } = false ∧
    CheckOrigin { Header := [("Origin", ["http://127.0.0.1:3000"])] } = false ∧
    CheckOrigin { Header := [("Origin", ["http://localhost:8080"])] } = false ∧
    CheckOrigin { Header := [("Origin", ["http://LOCALHOST:3000"])] } = false ∧
    CheckOrigin { Header := [("Origin", ["http://localhost:3000/"])] } = false ∧
    CheckOrigin { Header := [("Origin", ["http://localhost:3000"])] } = true := by
  have h1 : CheckOrigin r = true ↔ r.Header.Get "Origin" = "http://localhost:3000" := by
    simp [CheckOrigin]
  refine ⟨h1, ?_, by decide, by decide, by decide, by decide, by decide, by decide, by decide,
    by decide⟩
  rw [h1]
  unfold Header.Get
  constructor
  · intro h
    split at h
    · rename_i v more hv
      exact ⟨more, by rw [hv, h]⟩
    · exact absurd h (by decide)
  · rintro ⟨more, hm⟩
    rw [hm]

/-- C8, admission event sequence: for every successful upgrade whose reads
yield the frames `m1 .. mk` and then fail, `ServeHTTP` returns after sending
to the hub exactly `Join(p), Forward(m1), .., Forward(mk), Leave(p)` in this
order, whatever the socket would yield after the failure; `p` is one newly
allocated client named by `generateUniqueUser`, and its queue is made empty,
open and of capacity `messageBufferSize = 256`. -/
theorem serveHTTP_event_sequence (frames : List Bytes) (e : String)
    (rest : List (Except String Bytes)) (p : Process) :
    ∃ c, c.addr = p.nextAddr ∧ c.user = (generateUniqueUser p.userIDCounter).1 ∧
      ServeHTTP (.ok (frames.map Except.ok ++ Except.error e :: rest)) p =
        some
          { participant := c
            receive := { cap := 256, buf := [], sent := [], closed := false }
            events := Event.join c :: frames.map Event.forward ++ [Event.leave c]
            returned := true
            process :=
              { userIDCounter := (generateUniqueUser p.userIDCounter).2
                nextAddr := p.nextAddr + 1 } } := by
  refine ⟨{ addr := p.nextAddr, user := (generateUniqueUser p.userIDCounter).1 }, rfl, rfl, ?_⟩
  simp only [ServeHTTP, read_script, if_true, makeChan, messageBufferSize, List.cons_append]

end Chatserver
